import Mathlib

/-!
Verification of the plugin discovery and registration system
(`packages/core/src/DirectoryLoader.ts`).

The TypeScript classes `DirectoryLoader`, `CustomDirectoryLoader`,
`PackageDirectoryLoader` and `LazyPackageDirectoryLoader` are embedded
shallowly: the mutable instance fields become a `Registry` record that is
threaded explicitly, JavaScript objects become association lists that keep
JS insertion-order semantics, and fallible operations return `Except`.
External collaborators (the class resolver `loadClassInIsolation`, the
filesystem, `fast-glob`) are modelled by an `Env` record supplying their
observable results.
-/

namespace DirectoryLoaderProof

/-! ## Association lists with JavaScript object semantics

A JS object is modelled as a `List (String × α)` in insertion order.
`obj[k] = v` (`alSet`) overwrites in place when the key exists and appends
otherwise; `delete obj[k]` (`alErase`) removes the key.
-/

def alGet {κ α : Type} [DecidableEq κ] : List (κ × α) → κ → Option α
  | [], _ => none
  | (k', v) :: rest, k => if k' = k then some v else alGet rest k

def alSet {κ α : Type} [DecidableEq κ] : List (κ × α) → κ → α → List (κ × α)
  | [], k, v => [(k, v)]
  | (k', v') :: rest, k, v =>
      if k' = k then (k, v) :: rest else (k', v') :: alSet rest k v

def alErase {κ α : Type} [DecidableEq κ] : List (κ × α) → κ → List (κ × α)
  | [], _ => []
  | (k', v') :: rest, k => if k' = k then rest else (k', v') :: alErase rest k

/-- The keys of a JS object are pairwise distinct. -/
def NoDupKeys {κ α : Type} (m : List (κ × α)) : Prop :=
  (m.map Prod.fst).Nodup

/-! ## Data model

Only the parts of the `n8n-workflow` interfaces that `DirectoryLoader.ts`
reads or writes are modelled. An `INodeCredentialDescription` is reduced to
its `name`, the only field the loader consumes. Version numbers are
modelled as `Int`.
-/

/-- `icon`: either a plain string or a `{ light, dark }` pair. -/
inductive IconRef : Type
  | single (s : String)
  | dual (light dark : String)
deriving DecidableEq

/-- `iconUrl`: same shape as `icon`, produced by `fixIconPaths`. -/
inductive IconUrl : Type
  | single (s : String)
  | dual (light dark : String)
deriving DecidableEq

/-- `description.version`: a single number or an array of numbers. -/
inductive VersionSpec : Type
  | single (v : Int)
  | list (vs : List Int)
deriving DecidableEq

/-- Codex data attached to a node description (`categories`,
`subcategories`, `alias`; the `resources` block is opaque to the claims
and carried as the flag that it was present). -/
structure CodexData : Type where
  categories : Option (List String) := none
  subcategories : List (String × List String) := []
  /-- the `alias` field (`alias` is reserved in Lean) -/
  aliasNames : Option (List String) := none
deriving DecidableEq

/-- The fields of `INodeTypeDescription` / `INodeTypeBaseDescription` that
the loader reads or mutates. -/
structure NodeDesc : Type where
  name : String
  version : VersionSpec := .single 1
  icon : Option IconRef := none
  iconUrl : Option IconUrl := none
  /-- names of the declared `credentials` -/
  credentials : List String := []
  codex : Option CodexData := none
  /-- `__loadOptionsMethods` -/
  loadOptionsMethods : Option (List String) := none
deriving DecidableEq

/-- An `INodeType` instance: its description, whether the object has an
own property `executeSingle`, and the keys of `methods.loadOptions` when
that object exists. -/
structure NodeTypeModel : Type where
  description : NodeDesc
  hasExecuteSingle : Bool := false
  methodsLoadOptions : Option (List String) := none
deriving DecidableEq

/-- An `IVersionedNodeType`: base description, `currentVersion`, and
`nodeVersions` as a key-ordered association list (JS iterates integer-like
keys in ascending order; the environment supplies them in that order). -/
structure VersionedNodeTypeModel : Type where
  description : NodeDesc
  currentVersion : Int
  nodeVersions : List (Int × NodeTypeModel)
deriving DecidableEq

/-- The class loaded from a node file: `INodeType | IVersionedNodeType`,
discriminated in the source by `'nodeVersions' in tempNode`. -/
inductive NodeClass : Type
  | plain (n : NodeTypeModel)
  | versioned (v : VersionedNodeTypeModel)
deriving DecidableEq

/-- An `ICredentialType` instance: the fields the loader reads or writes.
`toJSONAttached` records that the serializer hook `toJSON` was assigned
onto the instance (`Object.assign(tempCredential, { toJSON })`). -/
structure CredentialTypeModel : Type where
  name : String
  /-- the credential's `extends` list -/
  extendsNames : Option (List String) := none
  icon : Option IconRef := none
  iconUrl : Option IconUrl := none
  toJSONAttached : Bool := false
deriving DecidableEq

/-- Entry of `known.nodes`: `{ className, sourcePath }`. -/
structure KnownNodeEntry : Type where
  className : String
  sourcePath : String
deriving DecidableEq

/-- Entry of `known.credentials`:
`{ className, sourcePath, extends?, supportedNodes? }`. -/
structure KnownCredentialEntry : Type where
  className : String
  sourcePath : String
  extendsNames : Option (List String) := none
  supportedNodes : Option (List String) := none
deriving DecidableEq

/-- `KnownNodesAndCredentials`. -/
structure Known : Type where
  nodes : List (String × KnownNodeEntry) := []
  credentials : List (String × KnownCredentialEntry) := []
deriving DecidableEq

/-- `INodeTypeNameVersion`, the element type of `loadedNodes`. -/
structure LoadedNode : Type where
  name : String
  version : Int
deriving DecidableEq

/-- Value of `nodeTypes[name]`: `{ type, sourcePath }`. -/
structure NodeTypeEntry : Type where
  type : NodeClass
  sourcePath : String
deriving DecidableEq

/-- Value of `credentialTypes[name]`: `{ type, sourcePath }`. -/
structure CredentialTypeEntry : Type where
  type : CredentialTypeModel
  sourcePath : String
deriving DecidableEq

/-- The `Types` aggregate: `{ nodes, credentials }`. -/
structure Types : Type where
  nodes : List NodeDesc := []
  credentials : List CredentialTypeModel := []
deriving DecidableEq

/-- The mutable instance state of a `DirectoryLoader`, plus
`resolverCalls`, an instrumentation counter of successful
`loadClassInIsolation` invocations (not an instance field). -/
structure Registry : Type where
  isLazyLoaded : Bool := false
  loadedNodes : List LoadedNode := []
  nodeTypes : List (String × NodeTypeEntry) := []
  credentialTypes : List (String × CredentialTypeEntry) := []
  known : Known := {}
  types : Types := {}
  nodesByCredential : List (String × List String) := []
  resolverCalls : Nat := 0
deriving DecidableEq

/-- The state of a freshly constructed loader. -/
def initialRegistry : Registry := {}

/-- `reset()`: reassigns `loadedNodes`, `nodeTypes`, `credentialTypes`,
`known` and `types`.  The source does not touch `nodesByCredential`
(declared `readonly`) nor `isLazyLoaded`. -/
def reset (s : Registry) : Registry :=
  { s with
    loadedNodes := []
    nodeTypes := []
    credentialTypes := []
    known := {}
    types := {} }

/-- The observable registry fields of a loader — everything except the
instrumentation counter, which is cleared before comparison. -/
def registryFields (s : Registry) : Registry :=
  { s with resolverCalls := 0 }

/-! ## Path helpers

`path.dirname` / `path.join` from Node's `path` module, modelled for the
normalized, relative, `/`-separated paths the loader passes them (no
trailing slashes, no `..` segments). -/

/-- Split a character list at every occurrence of `sep`. -/
def splitCharsOn (sep : Char) : List Char → List Char → List (List Char)
  | [], acc => [acc.reverse]
  | c :: cs, acc =>
      if c = sep then acc.reverse :: splitCharsOn sep cs []
      else splitCharsOn sep cs (c :: acc)

/-- Split a path into its `/`-separated segments. -/
def splitSlash (s : String) : List String :=
  (splitCharsOn '/' s.data []).map (fun l => ⟨l⟩)

/-- Rejoin path segments with `/`. -/
def joinSlash : List String → String
  | [] => ""
  | [p] => p
  | p :: ps => p ++ "/" ++ joinSlash ps

/-- `path.dirname`: everything before the last `/`, or `"."` when the
path has no directory part. -/
def dirname (p : String) : String :=
  let parts := splitSlash p
  if parts.length ≤ 1 then "." else joinSlash parts.dropLast

/-- `path.join` for a directory and a relative tail (Node collapses a
leading `"."`). -/
def pathJoin (dir tail : String) : String :=
  if dir = "." then tail else dir ++ "/" ++ tail

/-- `icon.startsWith('file:')`. -/
def startsWithFileMarker (s : String) : Bool :=
  s.data.take 5 = ['f', 'i', 'l', 'e', ':']

/-- `icon.replace('file:', '')` as used in `getIconPath`: every call site
guards the icon with `startsWith('file:')`, so removing the first
occurrence of the marker strips the five-character prefix. -/
def stripFileMarker (s : String) : String :=
  ⟨s.data.drop 5⟩

/-- `path.parse(sourcePath).name.split('.')[0]`: the class name derived
from the file name in `loadClass`. -/
def classNameOf (sourcePath : String) : String :=
  let base := (splitSlash sourcePath).getLastD sourcePath
  (((splitCharsOn '.' base.data []).map (fun l => (⟨l⟩ : String))).headD "")

/-! ## Icon normalization (`getIconPath`, `fixIconPaths`) -/

/-- `getIconPath`: rewrite one `file:`-marked reference into a
registry-relative URL under `icons/<packageName>/…`. -/
def getIconPath (packageName : String) (icon filePath : String) : String :=
  "icons/" ++ packageName ++ "/" ++ pathJoin (dirname filePath) (stripFileMarker icon)

/-- The core of `fixIconPaths`, acting on the `(icon, iconUrl)` pair of a
descriptor. A single-string reference is rewritten when it starts with
`file:`; a dual reference is rewritten only when **both** sides start with
`file:`; otherwise the pair is untouched. -/
def fixIconPair (packageName filePath : String)
    (icon : Option IconRef) (iconUrl : Option IconUrl) :
    Option IconRef × Option IconUrl :=
  match icon with
  | none => (icon, iconUrl)
  | some (.single s) =>
      if startsWithFileMarker s then
        (none, some (.single (getIconPath packageName s filePath)))
      else (icon, iconUrl)
  | some (.dual light dark) =>
      if startsWithFileMarker light ∧ startsWithFileMarker dark then
        (none, some (.dual (getIconPath packageName light filePath)
                           (getIconPath packageName dark filePath)))
      else (icon, iconUrl)

/-- `fixIconPaths` applied to a node description. -/
def fixIconPathsDesc (packageName filePath : String) (d : NodeDesc) : NodeDesc :=
  { d with
    icon := (fixIconPair packageName filePath d.icon d.iconUrl).1
    iconUrl := (fixIconPair packageName filePath d.icon d.iconUrl).2 }

/-- `fixIconPaths` applied to a credential instance. -/
def fixIconPathsCred (packageName filePath : String)
    (c : CredentialTypeModel) : CredentialTypeModel :=
  { c with
    icon := (fixIconPair packageName filePath c.icon c.iconUrl).1
    iconUrl := (fixIconPair packageName filePath c.icon c.iconUrl).2 }

/-! ## Codex enrichment (`getCodex`, `addCodex`) -/

/-- `CUSTOM_NODES_CATEGORY` from `Constants.ts` (not under `src/`; the
constant's value is irrelevant to the claims). -/
def CUSTOM_NODES_CATEGORY : String := "Custom Nodes"

/-- `addCodex` on a description: prefer the description's own codex
(except under the `CUSTOM` package), else read the sidecar file; on a
failed read keep the description unchanged, except that `CUSTOM` loaders
still inject the fixed category. `codexFiles` yields `some` only when the
sidecar exists, parses, and has the destructured `resources` block. -/
def addCodex (packageName : String) (codexFiles : String → Option CodexData)
    (filePath : String) (d : NodeDesc) : NodeDesc :=
  let isCustom := packageName = "CUSTOM"
  let own : Option CodexData := if isCustom then none else d.codex
  match own with
  | some codex => { d with codex := some codex }
  | none =>
      match codexFiles filePath with
      | some codex =>
          if isCustom then
            let cats := (codex.categories.getD []) ++ [CUSTOM_NODES_CATEGORY]
            { d with codex := some { codex with categories := some cats } }
          else { d with codex := some codex }
      | none =>
          if isCustom then
            { d with codex := some { categories := some [CUSTOM_NODES_CATEGORY] } }
          else d

/-! ## Shared load helpers -/

/-- lodash `uniqBy`: keep the first element for each key. -/
def uniqByAux {α β : Type} [DecidableEq β] (key : α → β) (seen : List β) :
    List α → List α
  | [] => []
  | x :: xs =>
      if key x ∈ seen then uniqByAux key seen xs
      else x :: uniqByAux key (key x :: seen) xs

def uniqBy {α β : Type} [DecidableEq β] (key : α → β) (l : List α) : List α :=
  uniqByAux key [] l

/-- `getCredentialsForNode`: all declared credential names; for a
versioned node, the union over all versions, de-duplicated by name. -/
def getCredentialsForNode : NodeClass → List String
  | .plain n => n.description.credentials
  | .versioned v =>
      uniqBy id ((v.nodeVersions.map (fun kv => kv.2.description.credentials)).flatten)

/-- The uniqueness key used by `getVersionedNodeTypeAll`:
`Array.isArray(version) ? version.join(',') : version.toString()`. -/
def versionKey (d : NodeDesc) : String :=
  match d.version with
  | .list vs => String.intercalate "," (vs.map toString)
  | .single v => toString v

/-- `getVersionedNodeTypeAll`, restricted to the descriptions it yields
(the caller only pushes `description`): for a versioned node, every
version's description with `name` and `codex` overwritten from the base
description, reversed, de-duplicated by version key. -/
def getVersionedNodeTypeAll : NodeClass → List NodeDesc
  | .plain n => [n.description]
  | .versioned v =>
      uniqBy versionKey
        (((v.nodeVersions.map (fun kv =>
            { kv.2.description with
                name := v.description.name
                codex := v.description.codex })).reverse))

/-- `addLoadOptionsMethods`: record the keys of `methods.loadOptions` on
the description when that object exists. -/
def addLoadOptionsMethods (n : NodeTypeModel) : NodeTypeModel :=
  match n.methodsLoadOptions with
  | some keys => { n with description := { n.description with loadOptionsMethods := some keys } }
  | none => n

/-- Bare version resolution for non-versioned nodes:
`Array.isArray(version) ? version.slice(-1)[0] : version`, i.e. the *last*
element of a version list. (On an empty list JS yields `undefined`;
modelled by the initializer value `1`, empty lists do not occur.) -/
def resolveBareVersion : VersionSpec → Int
  | .single v => v
  | .list vs => vs.getLastD 1

/-! ## Environment: external collaborators and loader configuration -/

/-- The `n8n` block of `package.json`: `nodes` / `credentials` are `some`
exactly when present as arrays. -/
structure N8nBlock : Type where
  nodes : Option (List String) := none
  credentials : Option (List String) := none

/-- Everything outside the loader instance: constructor arguments
(include/exclude lists), the class resolver, the filesystem artifacts and
the glob results. A `none` from an artifact field means the corresponding
read threw (missing file or JSON parse failure). -/
structure Env : Type where
  includeNodes : List String := []
  excludeNodes : List String := []
  /-- `loadClassInIsolation` for node files, keyed by the source path -/
  nodeClasses : String → Option NodeClass := fun _ => none
  /-- `loadClassInIsolation` for credential files -/
  credentialClasses : String → Option CredentialTypeModel := fun _ => none
  /-- codex sidecar files (`<filePath>on`) -/
  codexFiles : String → Option CodexData := fun _ => none
  /-- glob results for `**/*.node.js` -/
  customNodeFiles : List String := []
  /-- glob results for `**/*.credentials.js` -/
  customCredentialFiles : List String := []
  /-- `packageJson.name` -/
  packageName : String := ""
  /-- `packageJson.n8n` -/
  n8nBlock : Option N8nBlock := none
  /-- `dist/known/nodes.json` -/
  knownNodesArtifact : Option (List (String × KnownNodeEntry)) := none
  /-- `dist/known/credentials.json` -/
  knownCredentialsArtifact : Option (List (String × KnownCredentialEntry)) := none
  /-- `dist/types/nodes.json` -/
  typesNodesArtifact : Option (List NodeDesc) := none
  /-- `dist/types/credentials.json` -/
  typesCredentialsArtifact : Option (List CredentialTypeModel) := none

/-- The errors `DirectoryLoader` can throw while loading a file. -/
inductive LoadError : Type
  | classNotFound (className : String)
  | executeSingleRemoved (nodeName : String)
  | missingCurrentVersion (nodeName : String)
deriving DecidableEq

/-- Icon normalization of one version variant (in-place mutation of the
variant's description). -/
def fixIconOfNodeVersion (packageName filePath : String) (m : NodeTypeModel) :
    NodeTypeModel :=
  { m with description := fixIconPathsDesc packageName filePath m.description }

/-! ## Loading one node file (`loadNodeFromFile`)

The method is split into a pure preparation phase, which never reads the
registry, and a recording phase, which folds the prepared component into
the registry. `prepareNode` returns `none` when the include/exclude
filter drops the component. -/

/-- Count one (successful) invocation of the class resolver. -/
def bumpResolver (st : Registry) : Registry :=
  { st with resolverCalls := st.resolverCalls + 1 }

/-- `nodesByCredential[cred].push(nodeName)`, creating the array first
when the key is absent. -/
def pushNbc (m : List (String × List String)) (cred nodeName : String) :
    List (String × List String) :=
  alSet m cred ((alGet m cred).getD [] ++ [nodeName])

/-- The state-independent part of `loadNodeFromFile`: resolve the class,
enrich the base description with codex data, apply the include/exclude
filter, normalize icons, resolve the version and detect the retired
`executeSingle` contract. Yields the node to record, its bare name and
its resolved version — or `none` when filtered out. -/
def prepareNode (env : Env) (packageName : String) (filePath : String) :
    Except LoadError (Option (NodeClass × String × Int)) :=
  match env.nodeClasses filePath with
  | none => .error (.classNotFound (classNameOf filePath))
  | some tempNode =>
    let tempNode : NodeClass :=
      match tempNode with
      | .plain n =>
          .plain { n with description := addCodex packageName env.codexFiles filePath n.description }
      | .versioned v =>
          .versioned { v with description := addCodex packageName env.codexFiles filePath v.description }
    let nodeType :=
      match tempNode with
      | .plain n => n.description.name
      | .versioned v => v.description.name
    let fullNodeType := packageName ++ "." ++ nodeType
    if env.includeNodes ≠ [] ∧ fullNodeType ∉ env.includeNodes then .ok none
    else if fullNodeType ∈ env.excludeNodes then .ok none
    else
      match tempNode with
      | .plain n =>
          let n := { n with description := fixIconPathsDesc packageName filePath n.description }
          let n := addLoadOptionsMethods n
          .ok (some (.plain n, nodeType, resolveBareVersion n.description.version))
      | .versioned v =>
          let v := { v with description := fixIconPathsDesc packageName filePath v.description }
          let v := { v with nodeVersions := v.nodeVersions.map (fun (kv : Int × NodeTypeModel) =>
              (kv.1, fixIconOfNodeVersion packageName filePath kv.2)) }
          let v := { v with nodeVersions := v.nodeVersions.map (fun (kv : Int × NodeTypeModel) =>
              (kv.1, addLoadOptionsMethods kv.2)) }
          match alGet v.nodeVersions v.currentVersion with
          | none => .error (.missingCurrentVersion fullNodeType)
          | some currentVersionNode =>
            let curDesc := addCodex packageName env.codexFiles filePath currentVersionNode.description
            let currentVersionNode := { currentVersionNode with description := curDesc }
            let versions := alSet v.nodeVersions v.currentVersion currentVersionNode
            let v := { v with nodeVersions := versions }
            if currentVersionNode.hasExecuteSingle then
              .error (.executeSingleRemoved fullNodeType)
            else .ok (some (.versioned v, nodeType, v.currentVersion))

/-- The registry mutations at the end of `loadNodeFromFile`: update
`known.nodes`, `nodeTypes`, `loadedNodes`, `types.nodes` and the
credential reverse index. The recorded `className`
(`tempNode.constructor.name` in the source) coincides with the class name
derived from the file name, since `loadClass` resolves the instance by
exactly that name. -/
def recordNode (st : Registry) (node : NodeClass)
    (nodeType filePath : String) (nodeVersion : Int) : Registry :=
  { st with
    known := { st.known with
      nodes := alSet st.known.nodes nodeType ⟨classNameOf filePath, filePath⟩ }
    nodeTypes := alSet st.nodeTypes nodeType ⟨node, filePath⟩
    loadedNodes := st.loadedNodes ++ [⟨nodeType, nodeVersion⟩]
    types := { st.types with nodes := st.types.nodes ++ getVersionedNodeTypeAll node }
    nodesByCredential :=
      (getCredentialsForNode node).foldl (fun m c => pushNbc m c nodeType)
        st.nodesByCredential }

/-- `loadNodeFromFile`. -/
def loadNodeFromFile (env : Env) (packageName : String) (st : Registry)
    (filePath : String) : Except LoadError Registry :=
  match prepareNode env packageName filePath with
  | .error e => .error e
  | .ok none => .ok (bumpResolver st)
  | .ok (some (node, nodeType, nodeVersion)) =>
      .ok (recordNode (bumpResolver st) node nodeType filePath nodeVersion)

/-! ## Loading one credential file (`loadCredentialFromFile`) -/

/-- The registry mutations of `loadCredentialFromFile`: update
`known.credentials` (with `supportedNodes` read from the reverse index),
`credentialTypes` and `types.credentials`. -/
def recordCredential (st : Registry) (cred : CredentialTypeModel)
    (filePath : String) : Registry :=
  { st with
    known := { st.known with
      credentials := alSet st.known.credentials cred.name
        ⟨classNameOf filePath, filePath, cred.extendsNames,
          alGet st.nodesByCredential cred.name⟩ }
    credentialTypes := alSet st.credentialTypes cred.name ⟨cred, filePath⟩
    types := { st.types with credentials := st.types.credentials ++ [cred] } }

/-- `loadCredentialFromFile`: resolve the class, attach the `toJSON`
serializer hook, normalize icons, record. No include/exclude filtering
takes place here. -/
def loadCredentialFromFile (env : Env) (packageName : String) (st : Registry)
    (filePath : String) : Except LoadError Registry :=
  match env.credentialClasses filePath with
  | none => .error (.classNotFound (classNameOf filePath))
  | some tempCredential =>
      let tempCredential := { tempCredential with toJSONAttached := true }
      let tempCredential := fixIconPathsCred packageName filePath tempCredential
      .ok (recordCredential (bumpResolver st) tempCredential filePath)

/-! ## Discovery runs -/

/-- Sequential eager load of a list of node files. -/
def loadNodesFromFiles (env : Env) (packageName : String) (st : Registry) :
    List String → Except LoadError Registry
  | [] => .ok st
  | f :: fs =>
      match loadNodeFromFile env packageName st f with
      | .error e => .error e
      | .ok st' => loadNodesFromFiles env packageName st' fs

/-- Sequential eager load of a list of credential files. -/
def loadCredentialsFromFiles (env : Env) (packageName : String) (st : Registry) :
    List String → Except LoadError Registry
  | [] => .ok st
  | f :: fs =>
      match loadCredentialFromFile env packageName st f with
      | .error e => .error e
      | .ok st' => loadCredentialsFromFiles env packageName st' fs

/-- `CustomDirectoryLoader.loadAll`: glob node files, load them, then glob
credential files and load those. `packageName` is fixed to `CUSTOM`. -/
def customLoadAll (env : Env) (st : Registry) : Except LoadError Registry :=
  match loadNodesFromFiles env "CUSTOM" st env.customNodeFiles with
  | .error e => .error e
  | .ok st' => loadCredentialsFromFiles env "CUSTOM" st' env.customCredentialFiles

/-- `PackageDirectoryLoader.loadAll`: no `n8n` block means an empty
contribution; otherwise load the listed node files, then the listed
credential files. -/
def packageLoadAll (env : Env) (st : Registry) : Except LoadError Registry :=
  match env.n8nBlock with
  | none => .ok st
  | some block =>
      match loadNodesFromFiles env env.packageName st (block.nodes.getD []) with
      | .error e => .error e
      | .ok st' =>
          loadCredentialsFromFiles env env.packageName st' (block.credentials.getD [])

/-! ## Lazy loading (`LazyPackageDirectoryLoader.loadAll`) -/

/-- The include-filter pass over the lazily read `known.nodes`: rebuild
the object from the include list, keeping only names already present. -/
def filterKnownNodesInclude (includeNodes : List String)
    (kn : List (String × KnownNodeEntry)) : List (String × KnownNodeEntry) :=
  includeNodes.foldl
    (fun acc nodeName =>
      match alGet kn nodeName with
      | some entry => alSet acc nodeName entry
      | none => acc)
    []

/-- The post-hoc include filter of the lazy loader (a no-op when the
include list is empty). -/
def lazyApplyIncludeFilter (env : Env) (st : Registry) : Registry :=
  if env.includeNodes.isEmpty then st
  else
    { st with
      known := { st.known with
        nodes := filterKnownNodesInclude env.includeNodes st.known.nodes }
      types := { st.types with
        nodes := st.types.nodes.filter (fun d => env.includeNodes.contains d.name) } }

/-- The post-hoc exclude filter of the lazy loader (a no-op when the
exclude list is empty). -/
def lazyApplyExcludeFilter (env : Env) (st : Registry) : Registry :=
  if env.excludeNodes.isEmpty then st
  else
    { st with
      known := { st.known with
        nodes := env.excludeNodes.foldl alErase st.known.nodes }
      types := { st.types with
        nodes := st.types.nodes.filter (fun d => !(env.excludeNodes.contains d.name)) } }

/-- `LazyPackageDirectoryLoader.loadAll`: read the four manifest
artifacts in order, assigning each into the registry as it is read; on
the first failed read, fall back to the eager `PackageDirectoryLoader`
strategy *from the partially updated state*; on success apply the
post-hoc filters and set `isLazyLoaded`. -/
def lazyLoadAll (env : Env) (st : Registry) : Except LoadError Registry :=
  match env.knownNodesArtifact with
  | none => packageLoadAll env st
  | some kn =>
    let st := { st with known := { st.known with nodes := kn } }
    match env.knownCredentialsArtifact with
    | none => packageLoadAll env st
    | some kc =>
      let st := { st with known := { st.known with credentials := kc } }
      match env.typesNodesArtifact with
      | none => packageLoadAll env st
      | some tn =>
        let st := { st with types := { st.types with nodes := tn } }
        match env.typesCredentialsArtifact with
        | none => packageLoadAll env st
        | some tc =>
          let st := { st with types := { st.types with credentials := tc } }
          let st := lazyApplyIncludeFilter env st
          let st := lazyApplyExcludeFilter env st
          .ok { st with isLazyLoaded := true }

/-! ## Derived specification functions

These recompute, from the environment alone, what an eager scan
contributes to the credential reverse index; they are used to *state*
completeness of `supportedNodes`. -/

/-- Apply a list of `(credential, node)` pushes to a reverse index. -/
def foldPush (m : List (String × List String))
    (ps : List (String × String)) : List (String × List String) :=
  ps.foldl (fun m p => pushNbc m p.1 p.2) m

/-- The `(credential, node)` pushes an eager scan of `files` performs. -/
def pushesOf (env : Env) (packageName : String) (files : List String) :
    List (String × String) :=
  files.flatMap (fun f =>
    match prepareNode env packageName f with
    | .ok (some (node, nodeType, _)) =>
        (getCredentialsForNode node).map (fun c => (c, nodeType))
    | _ => [])

/-- The accepted nodes of an eager scan that declare credential `c`, in
scan order (one occurrence per declaration). -/
def declaringNodes (env : Env) (packageName : String) (files : List String)
    (c : String) : List String :=
  files.flatMap (fun f =>
    match prepareNode env packageName f with
    | .ok (some (node, nodeType, _)) =>
        (getCredentialsForNode node).filterMap
          (fun c' => if c' = c then some nodeType else none)
    | _ => [])

/-! ## Lemmas about association lists -/

theorem alGet_alSet {κ α : Type} [DecidableEq κ] (m : List (κ × α)) (k k' : κ) (v : α) :
    alGet (alSet m k v) k' = if k' = k then some v else alGet m k' := by
  induction m with
  | nil =>
      by_cases h : k' = k
      · simp [alSet, alGet, h]
      · have h2 : ¬k = k' := fun hh => h hh.symm
        simp [alSet, alGet, h, h2]
  | cons hd tl ih =>
      obtain ⟨k0, v0⟩ := hd
      by_cases h0 : k0 = k
      · subst h0
        by_cases h' : k' = k0
        · simp [alSet, alGet, h']
        · have h2 : ¬k0 = k' := fun hh => h' hh.symm
          simp [alSet, alGet, h', h2]
      · by_cases h' : k0 = k'
        · subst h'
          simp [alSet, alGet, h0, fun hh : k0 = k => h0 hh]
        · simp [alSet, alGet, h0, h', ih]

theorem alGet_eq_none_of_not_mem {κ α : Type} [DecidableEq κ]
    (m : List (κ × α)) (k : κ) (h : k ∉ m.map Prod.fst) : alGet m k = none := by
  induction m with
  | nil => rfl
  | cons hd tl ih =>
      obtain ⟨k0, v0⟩ := hd
      simp only [List.map_cons, List.mem_cons] at h
      push_neg at h
      have h1 : ¬k0 = k := fun hh => h.1 hh.symm
      simp [alGet, h1, ih h.2]

theorem mem_keys_alErase {κ α : Type} [DecidableEq κ]
    (m : List (κ × α)) (k x : κ) (h : x ∈ (alErase m k).map Prod.fst) :
    x ∈ m.map Prod.fst := by
  induction m with
  | nil => exact h
  | cons hd tl ih =>
      obtain ⟨k0, v0⟩ := hd
      by_cases h0 : k0 = k
      · simp only [alErase, if_pos h0] at h
        simp [h]
      · simp only [alErase, if_neg h0, List.map_cons, List.mem_cons] at h
        rcases h with h | h
        · simp [h]
        · simp [ih h]

theorem noDupKeys_alErase {κ α : Type} [DecidableEq κ]
    (m : List (κ × α)) (k : κ) (h : NoDupKeys m) : NoDupKeys (alErase m k) := by
  induction m with
  | nil => exact h
  | cons hd tl ih =>
      obtain ⟨k0, v0⟩ := hd
      simp only [NoDupKeys, List.map_cons, List.nodup_cons] at h
      by_cases h0 : k0 = k
      · simpa [alErase, if_pos h0, NoDupKeys] using h.2
      · simp only [alErase, if_neg h0]
        refine List.nodup_cons.mpr ⟨fun hmem => ?_, ih h.2⟩
        exact h.1 (mem_keys_alErase tl k k0 hmem)

theorem alGet_alErase {κ α : Type} [DecidableEq κ]
    (m : List (κ × α)) (k k' : κ) (h : NoDupKeys m) :
    alGet (alErase m k) k' = if k' = k then none else alGet m k' := by
  induction m with
  | nil => by_cases hk : k' = k <;> simp [alErase, alGet, hk]
  | cons hd tl ih =>
      obtain ⟨k0, v0⟩ := hd
      simp only [NoDupKeys, List.map_cons, List.nodup_cons] at h
      by_cases h0 : k0 = k
      · subst h0
        by_cases hk : k' = k0
        · subst hk
          simp [alErase, alGet, alGet_eq_none_of_not_mem tl k' h.1]
        · have h2 : ¬k0 = k' := fun hh => hk hh.symm
          simp [alErase, alGet, hk, h2]
      · by_cases hk : k0 = k'
        · subst hk
          have h2 : ¬(k0 = k) := h0
          simp [alErase, alGet, h2, fun hh : k0 = k => h0 hh]
        · simp [alErase, alGet, h0, hk, ih h.2]

/-! ## Lemmas about the credential reverse index -/

/-- The nodes a list of pushes contributes to credential `c`. -/
def selCred (ps : List (String × String)) (c : String) : List String :=
  ps.filterMap (fun p => if p.1 = c then some p.2 else none)

theorem alGet_pushNbc (m : List (String × List String)) (cred n c : String) :
    alGet (pushNbc m cred n) c =
      if c = cred then some ((alGet m cred).getD [] ++ [n]) else alGet m c := by
  simp [pushNbc, alGet_alSet]

theorem foldPush_append (m : List (String × List String))
    (ps qs : List (String × String)) :
    foldPush m (ps ++ qs) = foldPush (foldPush m ps) qs := by
  simp [foldPush, List.foldl_append]

theorem alGet_foldPush (ps : List (String × String))
    (m : List (String × List String)) (c : String) :
    alGet (foldPush m ps) c =
      match alGet m c with
      | some xs => some (xs ++ selCred ps c)
      | none => if selCred ps c = [] then none else some (selCred ps c) := by
  induction ps generalizing m with
  | nil =>
      cases h : alGet m c <;> simp [foldPush, selCred, h]
  | cons p ps ih =>
      obtain ⟨pc, pn⟩ := p
      have step : foldPush m ((pc, pn) :: ps) = foldPush (pushNbc m pc pn) ps := rfl
      rw [step, ih]
      by_cases hc : pc = c
      · subst hc
        have hg : alGet (pushNbc m pc pn) pc = some ((alGet m pc).getD [] ++ [pn]) := by
          simp [alGet_pushNbc]
        rw [hg]
        cases h : alGet m pc <;> simp [selCred, h]
      · have h2 : ¬c = pc := fun hh => hc hh.symm
        have hg : alGet (pushNbc m pc pn) c = alGet m c := by
          simp [alGet_pushNbc, h2]
        have hsel : selCred ((pc, pn) :: ps) c = selCred ps c := by
          simp [selCred, hc]
        rw [hg, hsel]

/-! ## Agreement up to the credential reverse index

Two loader states *agree* when every registry field except
`nodesByCredential` (and the `supportedNodes` component of
`known.credentials`, which is copied out of the reverse index) is equal.
The eager load algorithms preserve agreement, which is what makes the
resettable part of the registry reproducible. -/

/-- The part of a `known.credentials` entry that does not come from the
reverse index. -/
def credCore (e : KnownCredentialEntry) : String × String × Option (List String) :=
  (e.className, e.sourcePath, e.extendsNames)

/-- `known.credentials` with `supportedNodes` erased. -/
def credCores (l : List (String × KnownCredentialEntry)) :
    List (String × (String × String × Option (List String))) :=
  l.map (fun ke => (ke.1, credCore ke.2))

/-- Agreement of two loader states on everything except the credential
reverse index and the `supportedNodes` copies made from it. -/
def RegAgree (s t : Registry) : Prop :=
  s.loadedNodes = t.loadedNodes ∧
  s.nodeTypes = t.nodeTypes ∧
  s.credentialTypes = t.credentialTypes ∧
  s.known.nodes = t.known.nodes ∧
  credCores s.known.credentials = credCores t.known.credentials ∧
  s.types = t.types ∧
  s.isLazyLoaded = t.isLazyLoaded

theorem regAgree_refl (s : Registry) : RegAgree s s :=
  ⟨rfl, rfl, rfl, rfl, rfl, rfl, rfl⟩

theorem regAgree_bump {s t : Registry} (h : RegAgree s t) :
    RegAgree (bumpResolver s) (bumpResolver t) := h

theorem recordNode_agree {s t : Registry} (h : RegAgree s t)
    (node : NodeClass) (nodeType filePath : String) (nodeVersion : Int) :
    RegAgree (recordNode s node nodeType filePath nodeVersion)
      (recordNode t node nodeType filePath nodeVersion) := by
  obtain ⟨h1, h2, h3, h4, h5, h6, h7⟩ := h
  exact ⟨by simp [recordNode, h1], by simp [recordNode, h2],
    by simp [recordNode, h3], by simp [recordNode, h4],
    by simp [recordNode, h5], by simp [recordNode, h6],
    by simp [recordNode, h7]⟩

theorem credCores_alSet (l l' : List (String × KnownCredentialEntry))
    (h : credCores l = credCores l') (k : String)
    (e e' : KnownCredentialEntry) (he : credCore e = credCore e') :
    credCores (alSet l k e) = credCores (alSet l' k e') := by
  induction l generalizing l' with
  | nil =>
      cases l' with
      | nil => simp [alSet, credCores, he]
      | cons hd tl => simp [credCores] at h
  | cons hd tl ih =>
      cases l' with
      | nil => simp [credCores] at h
      | cons hd' tl' =>
          obtain ⟨k0, e0⟩ := hd
          obtain ⟨k0', e0'⟩ := hd'
          simp only [credCores, List.map_cons, List.cons.injEq, Prod.mk.injEq] at h
          obtain ⟨⟨hk0, he0⟩, htl⟩ := h
          subst hk0
          by_cases hkk : k0 = k


          · simp [alSet, hkk, credCores, he, htl]
          · simp only [alSet, if_neg hkk, credCores, List.map_cons, List.cons.injEq,
              Prod.mk.injEq]
            exact ⟨⟨by simp, he0⟩, ih tl' htl⟩

theorem recordCredential_agree {s t : Registry} (h : RegAgree s t)
    (cred : CredentialTypeModel) (filePath : String) :
    RegAgree (recordCredential s cred filePath)
      (recordCredential t cred filePath) := by
  obtain ⟨h1, h2, h3, h4, h5, h6, h7⟩ := h
  refine ⟨by simp [recordCredential, h1], by simp [recordCredential, h2],
    by simp [recordCredential, h3], by simp [recordCredential, h4], ?_,
    by simp [recordCredential, h6], by simp [recordCredential, h7]⟩
  simp only [recordCredential]
  exact credCores_alSet _ _ h5 cred.name _ _ rfl

/-! ## Simulation of two runs from agreeing states -/

theorem loadNodeFromFile_sim (env : Env) (pkg : String) {s t : Registry}
    (f : String) (h : RegAgree s t) :
    (∃ e, loadNodeFromFile env pkg s f = .error e ∧
          loadNodeFromFile env pkg t f = .error e) ∨
    (∃ s' t', loadNodeFromFile env pkg s f = .ok s' ∧
              loadNodeFromFile env pkg t f = .ok t' ∧ RegAgree s' t') := by
  unfold loadNodeFromFile
  cases hp : prepareNode env pkg f with
  | error e => exact Or.inl ⟨e, rfl, rfl⟩
  | ok o =>
      cases o with
      | none => exact Or.inr ⟨_, _, rfl, rfl, regAgree_bump h⟩
      | some r =>
          obtain ⟨node, nodeType, nodeVersion⟩ := r
          exact Or.inr ⟨_, _, rfl, rfl, recordNode_agree (regAgree_bump h) _ _ _ _⟩

theorem loadCredentialFromFile_sim (env : Env) (pkg : String) {s t : Registry}
    (f : String) (h : RegAgree s t) :
    (∃ e, loadCredentialFromFile env pkg s f = .error e ∧
          loadCredentialFromFile env pkg t f = .error e) ∨
    (∃ s' t', loadCredentialFromFile env pkg s f = .ok s' ∧
              loadCredentialFromFile env pkg t f = .ok t' ∧ RegAgree s' t') := by
  unfold loadCredentialFromFile
  cases hp : env.credentialClasses f with
  | none => exact Or.inl ⟨_, rfl, rfl⟩
  | some cred =>
      exact Or.inr ⟨_, _, rfl, rfl, recordCredential_agree (regAgree_bump h) _ _⟩

theorem loadNodesFromFiles_sim (env : Env) (pkg : String) :
    ∀ (fs : List String) {s t : Registry}, RegAgree s t →
    (∃ e, loadNodesFromFiles env pkg s fs = .error e ∧
          loadNodesFromFiles env pkg t fs = .error e) ∨
    (∃ s' t', loadNodesFromFiles env pkg s fs = .ok s' ∧
              loadNodesFromFiles env pkg t fs = .ok t' ∧ RegAgree s' t') := by
  intro fs
  induction fs with
  | nil =>
      intro s t h
      exact Or.inr ⟨s, t, rfl, rfl, h⟩
  | cons f fs ih =>
      intro s t h
      rcases loadNodeFromFile_sim env pkg f h with ⟨e, hs, ht⟩ | ⟨s1, t1, hs, ht, h1⟩
      · exact Or.inl ⟨e, by simp [loadNodesFromFiles, hs], by simp [loadNodesFromFiles, ht]⟩
      · rcases ih h1 with ⟨e, hs2, ht2⟩ | ⟨s2, t2, hs2, ht2, h2⟩
        · exact Or.inl ⟨e, by simp [loadNodesFromFiles, hs, hs2],
            by simp [loadNodesFromFiles, ht, ht2]⟩
        · exact Or.inr ⟨s2, t2, by simp [loadNodesFromFiles, hs, hs2],
            by simp [loadNodesFromFiles, ht, ht2], h2⟩

theorem loadCredentialsFromFiles_sim (env : Env) (pkg : String) :
    ∀ (fs : List String) {s t : Registry}, RegAgree s t →
    (∃ e, loadCredentialsFromFiles env pkg s fs = .error e ∧
          loadCredentialsFromFiles env pkg t fs = .error e) ∨
    (∃ s' t', loadCredentialsFromFiles env pkg s fs = .ok s' ∧
              loadCredentialsFromFiles env pkg t fs = .ok t' ∧ RegAgree s' t') := by
  intro fs
  induction fs with
  | nil =>
      intro s t h
      exact Or.inr ⟨s, t, rfl, rfl, h⟩
  | cons f fs ih =>
      intro s t h
      rcases loadCredentialFromFile_sim env pkg f h with ⟨e, hs, ht⟩ | ⟨s1, t1, hs, ht, h1⟩
      · exact Or.inl ⟨e, by simp [loadCredentialsFromFiles, hs],
          by simp [loadCredentialsFromFiles, ht]⟩
      · rcases ih h1 with ⟨e, hs2, ht2⟩ | ⟨s2, t2, hs2, ht2, h2⟩
        · exact Or.inl ⟨e, by simp [loadCredentialsFromFiles, hs, hs2],
            by simp [loadCredentialsFromFiles, ht, ht2]⟩
        · exact Or.inr ⟨s2, t2, by simp [loadCredentialsFromFiles, hs, hs2],
            by simp [loadCredentialsFromFiles, ht, ht2], h2⟩

theorem customLoadAll_sim (env : Env) {s t : Registry} (h : RegAgree s t)
    {s' t' : Registry} (hs : customLoadAll env s = .ok s')
    (ht : customLoadAll env t = .ok t') : RegAgree s' t' := by
  unfold customLoadAll at hs ht
  rcases loadNodesFromFiles_sim env "CUSTOM" env.customNodeFiles h with
    ⟨e, hs1, ht1⟩ | ⟨s1, t1, hs1, ht1, h1⟩
  · rw [hs1] at hs; cases hs
  · rw [hs1] at hs; rw [ht1] at ht
    have hs' : loadCredentialsFromFiles env "CUSTOM" s1 env.customCredentialFiles = .ok s' := hs
    have ht' : loadCredentialsFromFiles env "CUSTOM" t1 env.customCredentialFiles = .ok t' := ht
    rcases loadCredentialsFromFiles_sim env "CUSTOM" env.customCredentialFiles h1 with
      ⟨e, hs2, ht2⟩ | ⟨s2, t2, hs2, ht2, h2⟩
    · rw [hs2] at hs'; cases hs'
    · rw [hs2] at hs'; rw [ht2] at ht'
      cases hs'; cases ht'; exact h2

/-! ## Componentwise characterization of eager runs -/

theorem loadNodesFromFiles_nbc (env : Env) (pkg : String) :
    ∀ (fs : List String) {s s' : Registry},
    loadNodesFromFiles env pkg s fs = .ok s' →
    s'.nodesByCredential = foldPush s.nodesByCredential (pushesOf env pkg fs) := by
  intro fs
  induction fs with
  | nil =>
      intro s s' h
      cases h
      simp [pushesOf, foldPush]
  | cons f fs ih =>
      intro s s' h
      rw [show loadNodesFromFiles env pkg s (f :: fs) =
        match loadNodeFromFile env pkg s f with
        | .error e => .error e
        | .ok st' => loadNodesFromFiles env pkg st' fs from rfl] at h
      have hpunf : pushesOf env pkg (f :: fs) =
          (match prepareNode env pkg f with
            | .ok (some (node, nodeType, _)) =>
                (getCredentialsForNode node).map (fun c => (c, nodeType))
            | _ => []) ++ pushesOf env pkg fs := by
        simp [pushesOf]
      cases hp : prepareNode env pkg f with
      | error e =>
          rw [show loadNodeFromFile env pkg s f = .error e by
            simp [loadNodeFromFile, hp]] at h
          cases h
      | ok o =>
          cases o with
          | none =>
              rw [show loadNodeFromFile env pkg s f = .ok (bumpResolver s) by
                simp [loadNodeFromFile, hp]] at h
              rw [ih h, hpunf, hp]
              simp [bumpResolver]
          | some r =>
              obtain ⟨node, nodeType, nodeVersion⟩ := r
              rw [show loadNodeFromFile env pkg s f =
                .ok (recordNode (bumpResolver s) node nodeType f nodeVersion) by
                simp [loadNodeFromFile, hp]] at h
              rw [ih h, hpunf, hp, foldPush_append]
              have hrec : (recordNode (bumpResolver s) node nodeType f nodeVersion).nodesByCredential =
                  foldPush s.nodesByCredential
                    ((getCredentialsForNode node).map (fun c => (c, nodeType))) := by
                simp [recordNode, bumpResolver, foldPush, List.foldl_map]
              rw [hrec]

theorem loadCredentialsFromFiles_nbc (env : Env) (pkg : String) :
    ∀ (fs : List String) {s s' : Registry},
    loadCredentialsFromFiles env pkg s fs = .ok s' →
    s'.nodesByCredential = s.nodesByCredential := by
  intro fs
  induction fs with
  | nil => intro s s' h; cases h; rfl
  | cons f fs ih =>
      intro s s' h
      rw [show loadCredentialsFromFiles env pkg s (f :: fs) =
        match loadCredentialFromFile env pkg s f with
        | .error e => .error e
        | .ok st' => loadCredentialsFromFiles env pkg st' fs from rfl] at h
      cases hc : env.credentialClasses f with
      | none =>
          rw [show loadCredentialFromFile env pkg s f = .error (.classNotFound (classNameOf f)) by
            simp [loadCredentialFromFile, hc]] at h
          cases h
      | some cred =>
          rw [show loadCredentialFromFile env pkg s f =
            .ok (recordCredential (bumpResolver s)
              (fixIconPathsCred pkg f { cred with toJSONAttached := true }) f) by
            simp [loadCredentialFromFile, hc]] at h
          rw [ih h]
          simp [recordCredential, bumpResolver]

/-! ## Shape of single-file load results -/

theorem loadNodeFromFile_ok_cases (env : Env) (pkg : String) {s s' : Registry}
    {f : String} (h : loadNodeFromFile env pkg s f = .ok s') :
    (prepareNode env pkg f = .ok none ∧ s' = bumpResolver s) ∨
    (∃ node nodeType nodeVersion,
      prepareNode env pkg f = .ok (some (node, nodeType, nodeVersion)) ∧
      s' = recordNode (bumpResolver s) node nodeType f nodeVersion) := by
  unfold loadNodeFromFile at h
  cases hp : prepareNode env pkg f with
  | error e => rw [hp] at h; cases h
  | ok o =>
      cases o with
      | none => rw [hp] at h; cases h; exact Or.inl ⟨rfl, rfl⟩
      | some r =>
          obtain ⟨node, nodeType, nodeVersion⟩ := r
          rw [hp] at h; cases h
          exact Or.inr ⟨node, nodeType, nodeVersion, rfl, rfl⟩

theorem loadCredentialFromFile_ok_cases (env : Env) (pkg : String) {s s' : Registry}
    {f : String} (h : loadCredentialFromFile env pkg s f = .ok s') :
    ∃ cred, env.credentialClasses f = some cred ∧
      s' = recordCredential (bumpResolver s)
        (fixIconPathsCred pkg f { cred with toJSONAttached := true }) f := by
  unfold loadCredentialFromFile at h
  cases hc : env.credentialClasses f with
  | none => rw [hc] at h; cases h
  | some cred => rw [hc] at h; cases h; exact ⟨cred, rfl, rfl⟩

/-! ## Field preservation along eager runs -/

theorem loadNodesFromFiles_preserve (env : Env) (pkg : String) :
    ∀ (fs : List String) {s s' : Registry},
    loadNodesFromFiles env pkg s fs = .ok s' →
    s'.isLazyLoaded = s.isLazyLoaded ∧
    s'.known.credentials = s.known.credentials := by
  intro fs
  induction fs with
  | nil => intro s s' h; cases h; exact ⟨rfl, rfl⟩
  | cons f fs ih =>
      intro s s' h
      rw [show loadNodesFromFiles env pkg s (f :: fs) =
        match loadNodeFromFile env pkg s f with
        | .error e => .error e
        | .ok st' => loadNodesFromFiles env pkg st' fs from rfl] at h
      cases hl : loadNodeFromFile env pkg s f with
      | error e => rw [hl] at h; cases h
      | ok s1 =>
          rw [hl] at h
          have h1 := ih h
          rcases loadNodeFromFile_ok_cases env pkg hl with ⟨_, rfl⟩ | ⟨n, ty, v, _, rfl⟩
          · exact ⟨h1.1, h1.2⟩
          · exact ⟨h1.1, h1.2⟩

theorem loadCredentialsFromFiles_flag (env : Env) (pkg : String) :
    ∀ (fs : List String) {s s' : Registry},
    loadCredentialsFromFiles env pkg s fs = .ok s' →
    s'.isLazyLoaded = s.isLazyLoaded := by
  intro fs
  induction fs with
  | nil => intro s s' h; cases h; rfl
  | cons f fs ih =>
      intro s s' h
      rw [show loadCredentialsFromFiles env pkg s (f :: fs) =
        match loadCredentialFromFile env pkg s f with
        | .error e => .error e
        | .ok st' => loadCredentialsFromFiles env pkg st' fs from rfl] at h
      cases hl : loadCredentialFromFile env pkg s f with
      | error e => rw [hl] at h; cases h
      | ok s1 =>
          rw [hl] at h
          have h1 := ih h
          rcases loadCredentialFromFile_ok_cases env pkg hl with ⟨c, _, rfl⟩
          exact h1

theorem customLoadAll_flag (env : Env) {s s' : Registry}
    (h : customLoadAll env s = .ok s') : s'.isLazyLoaded = s.isLazyLoaded := by
  unfold customLoadAll at h
  cases h1 : loadNodesFromFiles env "CUSTOM" s env.customNodeFiles with
  | error e => rw [h1] at h; cases h
  | ok s1 =>
      rw [h1] at h
      have hf := loadCredentialsFromFiles_flag env "CUSTOM" env.customCredentialFiles h
      rw [hf, (loadNodesFromFiles_preserve env "CUSTOM" env.customNodeFiles h1).1]

theorem packageLoadAll_flag (env : Env) {s s' : Registry}
    (h : packageLoadAll env s = .ok s') : s'.isLazyLoaded = s.isLazyLoaded := by
  unfold packageLoadAll at h
  cases hb : env.n8nBlock with
  | none => rw [hb] at h; cases h; rfl
  | some block =>
      rw [hb] at h
      have h' : (match loadNodesFromFiles env env.packageName s (block.nodes.getD []) with
          | Except.error e => Except.error e
          | Except.ok st' =>
              loadCredentialsFromFiles env env.packageName st' (block.credentials.getD [])) =
          Except.ok s' := h
      cases h1 : loadNodesFromFiles env env.packageName s (block.nodes.getD []) with
      | error e => rw [h1] at h'; cases h'
      | ok s1 =>
          rw [h1] at h'
          have hf := loadCredentialsFromFiles_flag env env.packageName
            (block.credentials.getD []) h'
          rw [hf, (loadNodesFromFiles_preserve env env.packageName (block.nodes.getD []) h1).1]

/-! ## The `supportedNodes` invariant -/

/-- Every recorded credential's `supportedNodes` is exactly the current
reverse-index entry for that credential. -/
def SupInv (st : Registry) : Prop :=
  ∀ c e, alGet st.known.credentials c = some e →
    e.supportedNodes = alGet st.nodesByCredential c

theorem loadCredentialsFromFiles_supInv (env : Env) (pkg : String) :
    ∀ (fs : List String) {s s' : Registry}, SupInv s →
    loadCredentialsFromFiles env pkg s fs = .ok s' → SupInv s' := by
  intro fs
  induction fs with
  | nil => intro s s' hInv h; cases h; exact hInv
  | cons f fs ih =>
      intro s s' hInv h
      rw [show loadCredentialsFromFiles env pkg s (f :: fs) =
        match loadCredentialFromFile env pkg s f with
        | .error e => .error e
        | .ok st' => loadCredentialsFromFiles env pkg st' fs from rfl] at h
      cases hl : loadCredentialFromFile env pkg s f with
      | error e => rw [hl] at h; cases h
      | ok s1 =>
          rw [hl] at h
          refine ih ?_ h
          rcases loadCredentialFromFile_ok_cases env pkg hl with ⟨cred, _, rfl⟩
          intro c e hce
          set cred' := fixIconPathsCred pkg f { cred with toJSONAttached := true } with hcred'
          have hget : alGet (recordCredential (bumpResolver s) cred' f).known.credentials c =
              alGet (alSet s.known.credentials cred'.name
                ⟨classNameOf f, f, cred'.extendsNames,
                  alGet s.nodesByCredential cred'.name⟩) c := rfl
          rw [hget, alGet_alSet] at hce

          by_cases hcn : c = cred'.name
          · rw [if_pos hcn] at hce
            cases hce
            simp [recordCredential, bumpResolver, hcn]
          · rw [if_neg hcn] at hce
            have := hInv c e hce
            simpa [recordCredential, bumpResolver] using this

theorem declaringNodes_eq_selCred (env : Env) (pkg : String) (c : String) :
    ∀ (fs : List String),
    declaringNodes env pkg fs c = selCred (pushesOf env pkg fs) c := by
  intro fs
  induction fs with
  | nil => rfl
  | cons f fs ih =>
      have hd : declaringNodes env pkg (f :: fs) c =
          (match prepareNode env pkg f with
            | .ok (some (node, nodeType, _)) =>
                (getCredentialsForNode node).filterMap
                  (fun c' => if c' = c then some nodeType else none)
            | _ => []) ++ declaringNodes env pkg fs c := by
        simp [declaringNodes]
      have hp : pushesOf env pkg (f :: fs) =
          (match prepareNode env pkg f with
            | .ok (some (node, nodeType, _)) =>
                (getCredentialsForNode node).map (fun c' => (c', nodeType))
            | _ => []) ++ pushesOf env pkg fs := by
        simp [pushesOf]
      rw [hd, hp]
      have hsel : ∀ a b, selCred (a ++ b) c = selCred a c ++ selCred b c := by
        intro a b; simp [selCred]
      rw [hsel, ih]
      cases hpre : prepareNode env pkg f with
      | error e => rfl
      | ok o =>
          cases o with
          | none => rfl
          | some r =>
              obtain ⟨node, nodeType, nodeVersion⟩ := r
              simp only [selCred, List.filterMap_map]
              rfl

/-! ## Lookup characterization of the lazy post-hoc filters -/

theorem alGet_filterKnownNodesInclude (inc : List String)
    (kn : List (String × KnownNodeEntry)) (n : String) :
    alGet (filterKnownNodesInclude inc kn) n =
      if n ∈ inc then alGet kn n else none := by
  have aux : ∀ (l : List String) (acc : List (String × KnownNodeEntry)),
      alGet (l.foldl (fun acc nodeName =>
        match alGet kn nodeName with
        | some entry => alSet acc nodeName entry
        | none => acc) acc) n =
      if n ∈ l ∧ (alGet kn n).isSome then alGet kn n else alGet acc n := by
    intro l
    induction l with
    | nil => intro acc; simp
    | cons i l ih =>
        intro acc
        rw [List.foldl_cons, ih]
        by_cases hni : n = i
        · subst hni
          cases hkn : alGet kn n with
          | none => simp [hkn]
          | some e => simp [hkn, alGet_alSet]
        · have h2 : ¬n ∈ [i] := by simp [hni]
          cases hkn : alGet kn i with
          | none => simp [List.mem_cons, hni]
          | some e =>
              have hset : alGet (alSet acc i e) n = alGet acc n := by
                simp [alGet_alSet, hni]
              simp [List.mem_cons, hni, hset]
  rw [show filterKnownNodesInclude inc kn = inc.foldl (fun acc nodeName =>
    match alGet kn nodeName with
    | some entry => alSet acc nodeName entry
    | none => acc) [] from rfl, aux]
  by_cases hn : n ∈ inc
  · cases hkn : alGet kn n with
    | none => simp [hn, hkn, alGet]
    | some e => simp [hn, hkn]
  · simp [hn, alGet]

theorem noDupKeys_excludeFold {α : Type} (exc : List String) :
    ∀ (m : List (String × α)), NoDupKeys m → NoDupKeys (exc.foldl alErase m) := by
  induction exc with
  | nil => intro m h; exact h
  | cons x exc ih =>
      intro m h
      rw [List.foldl_cons]
      exact ih _ (noDupKeys_alErase m x h)

theorem alGet_excludeFold {α : Type} (exc : List String) :
    ∀ (m : List (String × α)), NoDupKeys m → ∀ (n : String),
    alGet (exc.foldl alErase m) n = if n ∈ exc then none else alGet m n := by
  induction exc with
  | nil => intro m _ n; simp
  | cons x exc ih =>
      intro m h n
      rw [List.foldl_cons, ih _ (noDupKeys_alErase m x h), alGet_alErase m x n h]
      by_cases hx : n = x
      · simp [hx]
      · simp [List.mem_cons, hx]

/-! ## Filtering behaviour of `prepareNode` -/

/-- The bare name of a loaded node class (`tempNode.description.name`). -/
def nodeClassName : NodeClass → String
  | .plain n => n.description.name
  | .versioned v => v.description.name

theorem addCodex_name (pkg : String) (cf : String → Option CodexData)
    (fp : String) (d : NodeDesc) : (addCodex pkg cf fp d).name = d.name := by
  unfold addCodex
  by_cases hc : pkg = "CUSTOM" <;>
    cases hdc : d.codex <;>
      cases hcf : cf fp <;>
        simp [hc, hdc, hcf]

theorem addCodex_version (pkg : String) (cf : String → Option CodexData)
    (fp : String) (d : NodeDesc) : (addCodex pkg cf fp d).version = d.version := by
  unfold addCodex
  by_cases hc : pkg = "CUSTOM" <;>
    cases hdc : d.codex <;>
      cases hcf : cf fp <;>
        simp [hc, hdc, hcf]

theorem addLoadOptionsMethods_name (n : NodeTypeModel) :
    (addLoadOptionsMethods n).description.name = n.description.name := by
  unfold addLoadOptionsMethods
  split <;> rfl

theorem addLoadOptionsMethods_version (n : NodeTypeModel) :
    (addLoadOptionsMethods n).description.version = n.description.version := by
  unfold addLoadOptionsMethods
  split <;> rfl

/-- The node value recorded for an accepted plain node: codex enrichment,
icon normalization, then load-options annotation. -/
def keptPlainNode (env : Env) (pkg f : String) (n : NodeTypeModel) : NodeTypeModel :=
  addLoadOptionsMethods
    { n with description :=
        fixIconPathsDesc pkg f (addCodex pkg env.codexFiles f n.description) }

theorem prepareNode_dropped_include (env : Env) (pkg f : String) (cls : NodeClass)
    (hcls : env.nodeClasses f = some cls)
    (hinc : env.includeNodes ≠ [])
    (hnot : pkg ++ "." ++ nodeClassName cls ∉ env.includeNodes) :
    prepareNode env pkg f = .ok none := by
  unfold prepareNode
  rw [hcls]
  cases cls with
  | plain n =>
      have hnot' : pkg ++ "." ++ n.description.name ∉ env.includeNodes := hnot
      simp [addCodex_name, hinc, hnot']
  | versioned v =>
      have hnot' : pkg ++ "." ++ v.description.name ∉ env.includeNodes := hnot
      simp [addCodex_name, hinc, hnot']

theorem prepareNode_dropped_exclude (env : Env) (pkg f : String) (cls : NodeClass)
    (hcls : env.nodeClasses f = some cls)
    (hexc : pkg ++ "." ++ nodeClassName cls ∈ env.excludeNodes) :
    prepareNode env pkg f = .ok none := by
  unfold prepareNode
  rw [hcls]
  cases cls with
  | plain n =>
      have hexc' : pkg ++ "." ++ n.description.name ∈ env.excludeNodes := hexc
      by_cases h1 : env.includeNodes ≠ [] ∧
          pkg ++ "." ++ n.description.name ∉ env.includeNodes
      · simp [addCodex_name, h1]
      · simp [addCodex_name, h1, hexc']
  | versioned v =>
      have hexc' : pkg ++ "." ++ v.description.name ∈ env.excludeNodes := hexc
      by_cases h1 : env.includeNodes ≠ [] ∧
          pkg ++ "." ++ v.description.name ∉ env.includeNodes
      · simp [addCodex_name, h1]
      · simp [addCodex_name, h1, hexc']

theorem prepareNode_kept_plain (env : Env) (pkg f : String) (n : NodeTypeModel)
    (hcls : env.nodeClasses f = some (.plain n))
    (hinc : env.includeNodes = [] ∨ (pkg ++ "." ++ n.description.name) ∈ env.includeNodes)
    (hexc : (pkg ++ "." ++ n.description.name) ∉ env.excludeNodes) :
    prepareNode env pkg f = .ok (some (.plain (keptPlainNode env pkg f n),
      n.description.name,
      resolveBareVersion (keptPlainNode env pkg f n).description.version)) := by
  unfold prepareNode
  rw [hcls]
  have h1 : ¬(env.includeNodes ≠ [] ∧
      pkg ++ "." ++ n.description.name ∉ env.includeNodes) := by
    rintro ⟨ha, hb⟩
    rcases hinc with h | h
    · exact ha h
    · exact hb h
  simp [addCodex_name, h1, hexc, keptPlainNode]

theorem alGet_mapVal {κ α β : Type} [DecidableEq κ] (g : α → β)
    (l : List (κ × α)) (k : κ) :
    alGet (l.map (fun kv => (kv.1, g kv.2))) k = (alGet l k).map g := by
  induction l with
  | nil => rfl
  | cons hd tl ih =>
      obtain ⟨k0, v0⟩ := hd
      by_cases h : k0 = k
      · simp [alGet, h]
      · simp [alGet, h, ih]

/-- A versioned node whose current variant carries the retired
`executeSingle` member makes `prepareNode` fail fatally (after passing
the include/exclude filter). -/
theorem prepareNode_executeSingle (env : Env) (pkg f : String)
    (v : VersionedNodeTypeModel) (cur : NodeTypeModel)
    (hcls : env.nodeClasses f = some (.versioned v))
    (hinc : env.includeNodes = [] ∨ (pkg ++ "." ++ v.description.name) ∈ env.includeNodes)
    (hexc : (pkg ++ "." ++ v.description.name) ∉ env.excludeNodes)
    (hcur : alGet v.nodeVersions v.currentVersion = some cur)
    (hes : cur.hasExecuteSingle = true) :
    prepareNode env pkg f =
      .error (.executeSingleRemoved (pkg ++ "." ++ v.description.name)) := by
  unfold prepareNode
  rw [hcls]
  have h1 : ¬(env.includeNodes ≠ [] ∧
      pkg ++ "." ++ v.description.name ∉ env.includeNodes) := by
    rintro ⟨ha, hb⟩
    rcases hinc with h | h
    · exact ha h
    · exact hb h
  have hes2 : ∀ m : NodeTypeModel, (addLoadOptionsMethods m).hasExecuteSingle =
      m.hasExecuteSingle := by
    intro m
    unfold addLoadOptionsMethods
    split <;> rfl
  have hlook : alGet ((v.nodeVersions.map (fun kv =>
        (kv.1, fixIconOfNodeVersion pkg f kv.2))).map (fun kv =>
        (kv.1, addLoadOptionsMethods kv.2))) v.currentVersion =
      some (addLoadOptionsMethods (fixIconOfNodeVersion pkg f cur)) := by
    rw [alGet_mapVal, alGet_mapVal, hcur]
    rfl
  have hes3 : (addLoadOptionsMethods (fixIconOfNodeVersion pkg f cur)).hasExecuteSingle = true := by
    rw [hes2]
    exact hes
  simp [addCodex_name, h1, hexc, hlook, hes3, -List.map_map]

/-! ## Run-level composition -/

theorem customLoadAll_nbc (env : Env) {s s' : Registry}
    (h : customLoadAll env s = .ok s') :
    s'.nodesByCredential =
      foldPush s.nodesByCredential (pushesOf env "CUSTOM" env.customNodeFiles) := by
  unfold customLoadAll at h
  cases h1 : loadNodesFromFiles env "CUSTOM" s env.customNodeFiles with
  | error e => rw [h1] at h; cases h
  | ok s1 =>
      rw [h1] at h
      rw [loadCredentialsFromFiles_nbc env "CUSTOM" env.customCredentialFiles h,
        loadNodesFromFiles_nbc env "CUSTOM" env.customNodeFiles h1]

/-- After a two-phase eager run from the freshly constructed state, every
recorded credential's `supportedNodes` is exactly the (possibly absent)
list of accepted declaring nodes of the node phase. -/
theorem phases_supportedNodes (env : Env) (pkg : String)
    (nodeFiles credFiles : List String) {s1 s2 : Registry}
    (h1 : loadNodesFromFiles env pkg initialRegistry nodeFiles = .ok s1)
    (h2 : loadCredentialsFromFiles env pkg s1 credFiles = .ok s2) :
    ∀ c e, alGet s2.known.credentials c = some e →
      e.supportedNodes = (if declaringNodes env pkg nodeFiles c = [] then none
        else some (declaringNodes env pkg nodeFiles c)) := by
  have hkc : s1.known.credentials = [] :=
    (loadNodesFromFiles_preserve env pkg nodeFiles h1).2
  have hnbc : s1.nodesByCredential = foldPush [] (pushesOf env pkg nodeFiles) :=
    loadNodesFromFiles_nbc env pkg nodeFiles h1
  have hinv : SupInv s1 := by
    intro c e hce
    rw [hkc] at hce
    cases hce
  have hinv2 : SupInv s2 := loadCredentialsFromFiles_supInv env pkg credFiles hinv h2
  have hnbc2 : s2.nodesByCredential = s1.nodesByCredential :=
    loadCredentialsFromFiles_nbc env pkg credFiles h2
  intro c e hce
  rw [hinv2 c e hce, hnbc2, hnbc, alGet_foldPush, declaringNodes_eq_selCred]
  rfl

/-! ## Field behaviour of the lazy filters -/

theorem lazyApplyIncludeFilter_fields (env : Env) (st : Registry) :
    (lazyApplyIncludeFilter env st).isLazyLoaded = st.isLazyLoaded ∧
    (lazyApplyIncludeFilter env st).resolverCalls = st.resolverCalls := by
  unfold lazyApplyIncludeFilter
  split <;> exact ⟨rfl, rfl⟩

theorem lazyApplyExcludeFilter_fields (env : Env) (st : Registry) :
    (lazyApplyExcludeFilter env st).isLazyLoaded = st.isLazyLoaded ∧
    (lazyApplyExcludeFilter env st).resolverCalls = st.resolverCalls := by
  unfold lazyApplyExcludeFilter
  split <;> exact ⟨rfl, rfl⟩

/-! # Claims -/

/-! ## C1: what `reset()` clears -/

/-- Environment for the C1 counterexample: one custom node declaring one
credential, and the credential's file. -/
def envC1 : Env :=
  { nodeClasses := fun p =>
      if p = "dist/N1.node.js" then
        some (.plain { description := { name := "node1", credentials := ["credential1"] } })
      else none
    credentialClasses := fun p =>
      if p = "dist/C1.js" then some { name := "credential1" } else none
    customNodeFiles := ["dist/N1.node.js"]
    customCredentialFiles := ["dist/C1.js"] }

/-- **C1, counterexample.** After one discovery run, `reset()` does not
return the loader to the freshly constructed state: `nodesByCredential`
keeps the entries pushed during the run, because `reset()` never touches
that (readonly) field. -/
theorem c1_counterexample :
    (customLoadAll envC1 initialRegistry).map
      (fun s => (decide (registryFields (reset s) = registryFields initialRegistry),
        (reset s).nodesByCredential)) =
      .ok (false, [("credential1", ["node1"])]) := rfl

/-- **C1 (amended).** `reset()` returns `loadedNodes`, `nodeTypes`,
`credentialTypes`, `known` and `types` to their empty initial values, but
leaves `nodesByCredential` and the `isLazyLoaded` flag exactly as they
were; the instance is therefore *not* observably identical to a freshly
constructed loader whenever either of those two fields is non-initial. -/
theorem c1_reset_amended (s : Registry) :
    (reset s).loadedNodes = [] ∧
    (reset s).nodeTypes = [] ∧
    (reset s).credentialTypes = [] ∧
    (reset s).known = ({} : Known) ∧
    (reset s).types = ({} : Types) ∧
    (reset s).nodesByCredential = s.nodesByCredential ∧
    (reset s).isLazyLoaded = s.isLazyLoaded :=
  ⟨rfl, rfl, rfl, rfl, rfl, rfl, rfl⟩

/-! ## C2: reset followed by re-discovery -/

/-- Environment for C2: one custom node declaring one credential, plus
the credential file. -/
def envC2 : Env :=
  { nodeClasses := fun p =>
      if p = "dist/N2.node.js" then
        some (.plain { description := { name := "node1", credentials := ["credential1"] } })
      else none
    credentialClasses := fun p =>
      if p = "dist/C2.js" then some { name := "credential1" } else none
    customNodeFiles := ["dist/N2.node.js"]
    customCredentialFiles := ["dist/C2.js"] }

/-- **C2, counterexample.** Discovery, `reset()`, discovery again over
identical inputs does *not* reproduce the first registry: the second
run's `nodesByCredential` holds every declaring node twice, because
`reset()` does not clear the reverse index. -/
theorem c2_counterexample :
    ((customLoadAll envC2 initialRegistry).bind (fun s1 =>
      (customLoadAll envC2 (reset s1)).map (fun s2 =>
        (decide (registryFields s2 = registryFields s1),
          s1.nodesByCredential, s2.nodesByCredential)))) =
      .ok (false, [("credential1", ["node1"])], [("credential1", ["node1", "node1"])]) := rfl

/-- **C2 (amended).** Re-discovery after `reset()` over identical inputs
reproduces `loadedNodes`, `nodeTypes`, `credentialTypes`, `known.nodes`,
`types`, and `known.credentials` up to `supportedNodes`; but the reverse
index is not rebuilt from scratch: the second run performs the same
pushes *on top of* the first run's surviving `nodesByCredential` (so each
credential's list, and the `supportedNodes` copied from it, is
duplicated rather than reproduced). -/
theorem c2_rescan_amended (env : Env) {s1 s2 : Registry}
    (h1 : customLoadAll env initialRegistry = .ok s1)
    (h2 : customLoadAll env (reset s1) = .ok s2) :
    s2.loadedNodes = s1.loadedNodes ∧
    s2.nodeTypes = s1.nodeTypes ∧
    s2.credentialTypes = s1.credentialTypes ∧
    s2.known.nodes = s1.known.nodes ∧
    credCores s2.known.credentials = credCores s1.known.credentials ∧
    s2.types = s1.types ∧
    s1.nodesByCredential = foldPush [] (pushesOf env "CUSTOM" env.customNodeFiles) ∧
    s2.nodesByCredential =
      foldPush s1.nodesByCredential (pushesOf env "CUSTOM" env.customNodeFiles) := by
  have hflag : s1.isLazyLoaded = false := by
    rw [customLoadAll_flag env h1]
    rfl
  have hagree0 : RegAgree initialRegistry (reset s1) := by
    refine ⟨rfl, rfl, rfl, rfl, rfl, rfl, ?_⟩
    show initialRegistry.isLazyLoaded = (reset s1).isLazyLoaded
    rw [show (reset s1).isLazyLoaded = s1.isLazyLoaded from rfl, hflag]
    rfl
  obtain ⟨e1, e2, e3, e4, e5, e6, _⟩ := customLoadAll_sim env hagree0 h1 h2
  refine ⟨e1.symm, e2.symm, e3.symm, e4.symm, e5.symm, e6.symm, ?_, ?_⟩
  · exact customLoadAll_nbc env h1
  · calc s2.nodesByCredential
        = foldPush (reset s1).nodesByCredential
            (pushesOf env "CUSTOM" env.customNodeFiles) := customLoadAll_nbc env h2
      _ = foldPush s1.nodesByCredential
            (pushesOf env "CUSTOM" env.customNodeFiles) := rfl

/-- First-run result for the C2 witness. -/
def s1C2 : Registry :=
  match customLoadAll envC2 initialRegistry with
  | .ok s => s
  | .error _ => initialRegistry

/-- Second-run (after `reset`) result for the C2 witness. -/
def s2C2 : Registry :=
  match customLoadAll envC2 (reset s1C2) with
  | .ok s => s
  | .error _ => initialRegistry

/-- Witness instantiating `c2_rescan_amended` on a concrete loader. -/
theorem c2_rescan_amended_witness :
    s2C2.loadedNodes = s1C2.loadedNodes ∧
    s2C2.nodeTypes = s1C2.nodeTypes ∧
    s2C2.credentialTypes = s1C2.credentialTypes ∧
    s2C2.known.nodes = s1C2.known.nodes ∧
    credCores s2C2.known.credentials = credCores s1C2.known.credentials ∧
    s2C2.types = s1C2.types ∧
    s1C2.nodesByCredential = foldPush [] (pushesOf envC2 "CUSTOM" envC2.customNodeFiles) ∧
    s2C2.nodesByCredential =
      foldPush s1C2.nodesByCredential (pushesOf envC2 "CUSTOM" envC2.customNodeFiles) :=
  c2_rescan_amended envC2 rfl rfl

/-! ## C3: lazy fallback and partially-read state -/

/-- Environment for the C3 counterexample: the first lazy artifact read
succeeds and contains a node (`ghost`) that the eager strategy never
produces; the second read fails, triggering the fallback. -/
def envC3 : Env :=
  { nodeClasses := fun p =>
      if p = "dist/N3.node.js" then
        some (.plain { description := { name := "node1" } })
      else none
    packageName := "n8n-nodes-test"
    n8nBlock := some { nodes := some ["dist/N3.node.js"] }
    knownNodesArtifact := some [("ghost", ⟨"Ghost", "dist/Ghost.node.js"⟩)]
    knownCredentialsArtifact := none }

/-- **C3, counterexample.** When a *later* manifest read fails, the
partially-read state is *not* discarded: the fallback registry still
contains the `ghost` entry read from the first artifact, so it differs
from what the eager strategy produces from the same underlying files. -/
theorem c3_counterexample :
    ((lazyLoadAll envC3 initialRegistry).bind (fun lz =>
      (packageLoadAll envC3 initialRegistry).map (fun eg =>
        (decide (registryFields lz = registryFields eg),
          alGet lz.known.nodes "ghost", alGet eg.known.nodes "ghost")))) =
      .ok (false, some ⟨"Ghost", "dist/Ghost.node.js"⟩, none) := rfl

/-- **C3 (amended).** The fallback runs the eager strategy from whatever
state the lazy reads left behind: if the *first* read fails the result
equals the eager strategy exactly; if a later read fails, the
already-assigned artifacts stay in the registry and the eager load merges
on top of them (mixed lazy/eager state is observable). -/
theorem c3_fallback_amended (env : Env) (st : Registry) :
    (env.knownNodesArtifact = none → lazyLoadAll env st = packageLoadAll env st) ∧
    (∀ kn, env.knownNodesArtifact = some kn → env.knownCredentialsArtifact = none →
      lazyLoadAll env st =
        packageLoadAll env { st with known := { st.known with nodes := kn } }) := by
  constructor
  · intro h
    unfold lazyLoadAll
    rw [h]
  · intro kn h1 h2
    unfold lazyLoadAll
    rw [h1, h2]

/-- Environment for the C3 witness first conjunct: the very first
artifact read fails. -/
def envC3w : Env :=
  { nodeClasses := fun p =>
      if p = "dist/N3.node.js" then
        some (.plain { description := { name := "node1" } })
      else none
    packageName := "n8n-nodes-test"
    n8nBlock := some { nodes := some ["dist/N3.node.js"] }
    knownNodesArtifact := none }

/-- Witness instantiating `c3_fallback_amended` on both fallback shapes. -/
theorem c3_fallback_amended_witness :
    lazyLoadAll envC3w initialRegistry = packageLoadAll envC3w initialRegistry ∧
    lazyLoadAll envC3 initialRegistry =
      packageLoadAll envC3
        { initialRegistry with known := { initialRegistry.known with
            nodes := [("ghost", ⟨"Ghost", "dist/Ghost.node.js"⟩)] } } :=
  ⟨(c3_fallback_amended envC3w initialRegistry).1 rfl,
   (c3_fallback_amended envC3 initialRegistry).2 _ rfl rfl⟩

/-! ## C4: credential files and the include/exclude filter -/

/-- Environment for the C4 counterexample: an include filter naming
exactly one fully-qualified node, one matching node file, and one
credential file whose fully-qualified name is *not* in the filter. -/
def envC4 : Env :=
  { includeNodes := ["pkg.node1"]
    nodeClasses := fun p =>
      if p = "dist/N4.node.js" then
        some (.plain { description := { name := "node1" } })
      else none
    credentialClasses := fun p =>
      if p = "dist/C4.js" then some { name := "credential9" } else none
    packageName := "pkg"
    n8nBlock := some { nodes := some ["dist/N4.node.js"], credentials := some ["dist/C4.js"] } }

/-- **C4, counterexample.** With an include filter holding exactly one
fully-qualified name, the resulting registry still records the credential
file (`credential9`, whose fully-qualified name is not in the filter):
`loadCredentialFromFile` performs no include/exclude filtering, so the
registry has two forward records, not one. -/
theorem c4_counterexample :
    (packageLoadAll envC4 initialRegistry).map (fun s =>
      (s.nodeTypes.map Prod.fst, s.credentialTypes.map Prod.fst)) =
      .ok (["node1"], ["credential9"]) := rfl

/-- **C4 (amended).** `loadCredentialFromFile` applies *no*
include/exclude filtering: every credential whose class resolves is
recorded (with the `toJSON` serialization hook attached), regardless of
the filter lists. The include filter restricts nodes only: with an
include list of exactly one fully-qualified name, a node file whose
fully-qualified name differs contributes nothing to the registry. -/
theorem c4_credential_filter_amended :
    (∀ (env : Env) (pkg : String) (st : Registry) (f : String)
        (cred : CredentialTypeModel), env.credentialClasses f = some cred →
      ∃ s', loadCredentialFromFile env pkg st f = .ok s' ∧
        ∃ e, alGet s'.credentialTypes cred.name = some e ∧
          e.sourcePath = f ∧ e.type.toJSONAttached = true) ∧
    (∀ (env : Env) (pkg : String) (st : Registry) (f : String)
        (cls : NodeClass) (q : String), env.includeNodes = [q] →
      env.nodeClasses f = some cls → pkg ++ "." ++ nodeClassName cls ≠ q →
      (loadNodeFromFile env pkg st f).map registryFields = .ok (registryFields st)) := by
  constructor
  · intro env pkg st f cred hc
    refine ⟨recordCredential (bumpResolver st)
      (fixIconPathsCred pkg f { cred with toJSONAttached := true }) f, ?_, ?_⟩
    · unfold loadCredentialFromFile
      rw [hc]
    · refine ⟨⟨fixIconPathsCred pkg f { cred with toJSONAttached := true }, f⟩, ?_, rfl, rfl⟩
      show alGet (alSet st.credentialTypes
        (fixIconPathsCred pkg f { cred with toJSONAttached := true }).name
        ⟨fixIconPathsCred pkg f { cred with toJSONAttached := true }, f⟩) cred.name = _
      rw [alGet_alSet]
      simp [fixIconPathsCred]
  · intro env pkg st f cls q hq hcls hne
    have hnot : pkg ++ "." ++ nodeClassName cls ∉ env.includeNodes := by
      rw [hq]
      simp [hne]
    have hinc : env.includeNodes ≠ [] := by
      rw [hq]
      simp
    have hp := prepareNode_dropped_include env pkg f cls hcls hinc hnot
    simp [loadNodeFromFile, hp]
    rfl

/-- Witness instantiating both conjuncts of `c4_credential_filter_amended`
on the C4 environment. -/
theorem c4_credential_filter_amended_witness :
    (∃ s', loadCredentialFromFile envC4 "pkg" initialRegistry "dist/C4.js" = .ok s' ∧
      ∃ e, alGet s'.credentialTypes "credential9" = some e ∧
        e.sourcePath = "dist/C4.js" ∧ e.type.toJSONAttached = true) ∧
    (loadNodeFromFile envC4 "other" initialRegistry "dist/N4.node.js").map registryFields =
      .ok (registryFields initialRegistry) :=
  ⟨c4_credential_filter_amended.1 envC4 "pkg" initialRegistry "dist/C4.js" _ rfl,
   c4_credential_filter_amended.2 envC4 "other" initialRegistry "dist/N4.node.js"
     _ "pkg.node1" rfl rfl (by decide)⟩

/-! ## C5: include/exclude semantics -/

theorem mem_keys_alSet {κ α : Type} [DecidableEq κ]
    (m : List (κ × α)) (k x : κ) (v : α)
    (h : x ∈ (alSet m k v).map Prod.fst) : x ∈ m.map Prod.fst ∨ x = k := by
  induction m with
  | nil =>
      simp only [alSet, List.map_cons, List.map_nil, List.mem_singleton] at h
      exact Or.inr h
  | cons hd tl ih =>
      obtain ⟨k0, v0⟩ := hd
      by_cases h0 : k0 = k
      · simp only [alSet, if_pos h0, List.map_cons, List.mem_cons] at h
        rcases h with h | h
        · exact Or.inr h
        · simp [h]
      · simp only [alSet, if_neg h0, List.map_cons, List.mem_cons] at h
        rcases h with h | h
        · simp [h]
        · rcases ih h with h | h
          · simp [h]
          · exact Or.inr h

theorem noDupKeys_alSet {κ α : Type} [DecidableEq κ]
    (m : List (κ × α)) (k : κ) (v : α) (h : NoDupKeys m) :
    NoDupKeys (alSet m k v) := by
  induction m with
  | nil => simp [alSet, NoDupKeys]
  | cons hd tl ih =>
      obtain ⟨k0, v0⟩ := hd
      simp only [NoDupKeys, List.map_cons, List.nodup_cons] at h
      by_cases h0 : k0 = k
      · subst h0
        have hset : alSet ((k0, v0) :: tl) k0 v = (k0, v) :: tl := by
          simp [alSet]
        rw [hset]
        exact List.nodup_cons.mpr h
      · simp only [alSet, if_neg h0, NoDupKeys, List.map_cons]
        refine List.nodup_cons.mpr ⟨fun hmem => ?_, ih h.2⟩
        rcases mem_keys_alSet tl k k0 v hmem with hh | hh
        · exact h.1 hh
        · exact h0 hh

theorem noDupKeys_filterKnownNodesInclude (inc : List String)
    (kn : List (String × KnownNodeEntry)) :
    NoDupKeys (filterKnownNodesInclude inc kn) := by
  have aux : ∀ (l : List String) (acc : List (String × KnownNodeEntry)),
      NoDupKeys acc →
      NoDupKeys (l.foldl (fun acc nodeName =>
        match alGet kn nodeName with
        | some entry => alSet acc nodeName entry
        | none => acc) acc) := by
    intro l
    induction l with
    | nil => intro acc h; exact h
    | cons i l ih =>
        intro acc h
        rw [List.foldl_cons]
        cases hkn : alGet kn i with
        | none => simp only [hkn]; exact ih acc h
        | some e => simp only [hkn]; exact ih _ (noDupKeys_alSet acc i e h)
  exact aux inc [] (by simp [NoDupKeys])

/-- Lookup characterization of the lazy loader's post-hoc filters on the
`known.nodes` index. -/
theorem alGet_lazyFilters_knownNodes (env : Env) (st : Registry)
    (hnd : NoDupKeys st.known.nodes) (n : String) :
    alGet (lazyApplyExcludeFilter env (lazyApplyIncludeFilter env st)).known.nodes n =
      if (env.includeNodes = [] ∨ n ∈ env.includeNodes) ∧ n ∉ env.excludeNodes
      then alGet st.known.nodes n else none := by
  unfold lazyApplyIncludeFilter lazyApplyExcludeFilter
  by_cases hi : env.includeNodes.isEmpty <;> by_cases he : env.excludeNodes.isEmpty
  · have hi' : env.includeNodes = [] := by simpa using hi
    have he' : env.excludeNodes = [] := by simpa using he
    simp [hi, he, hi', he']
  · have hi' : env.includeNodes = [] := by simpa using hi
    simp only [if_pos hi, if_neg he]
    rw [alGet_excludeFold env.excludeNodes st.known.nodes hnd n]
    by_cases hx : n ∈ env.excludeNodes
    · simp [hx]
    · simp [hx, hi']
  · have he' : env.excludeNodes = [] := by simpa using he
    simp only [if_neg hi, if_pos he]
    rw [alGet_filterKnownNodesInclude]
    have hi'' : ¬env.includeNodes = [] := by simpa using hi
    by_cases hn : n ∈ env.includeNodes
    · simp [hn, he']
    · simp [hn, he', hi'']
  · simp only [if_neg hi, if_neg he]
    rw [alGet_excludeFold env.excludeNodes _
      (noDupKeys_filterKnownNodesInclude env.includeNodes st.known.nodes) n]
    rw [alGet_filterKnownNodesInclude]
    have hi'' : ¬env.includeNodes = [] := by simpa using hi
    by_cases hx : n ∈ env.excludeNodes
    · simp [hx]
    · by_cases hn : n ∈ env.includeNodes
      · simp [hx, hn]
      · simp [hx, hn, hi'']

/-- Membership characterization of the lazy filters on `types.nodes`. -/
theorem mem_lazyFilters_typesNodes (env : Env) (st : Registry) (d : NodeDesc) :
    d ∈ (lazyApplyExcludeFilter env (lazyApplyIncludeFilter env st)).types.nodes ↔
      d ∈ st.types.nodes ∧ (env.includeNodes = [] ∨ d.name ∈ env.includeNodes) ∧
        d.name ∉ env.excludeNodes := by
  unfold lazyApplyIncludeFilter lazyApplyExcludeFilter
  by_cases hi : env.includeNodes.isEmpty <;> by_cases he : env.excludeNodes.isEmpty
  · have hi' : env.includeNodes = [] := by simpa using hi
    have he' : env.excludeNodes = [] := by simpa using he
    simp [hi, he, hi', he']
  · have hi' : env.includeNodes = [] := by simpa using hi
    simp [hi, he, hi', List.mem_filter]
  · have he' : env.excludeNodes = [] := by simpa using he
    have hi'' : ¬env.includeNodes = [] := by simpa using hi
    simp [hi, he, he', hi'', List.mem_filter]
  · have hi'' : ¬env.includeNodes = [] := by simpa using hi
    simp [hi, he, hi'', List.mem_filter, and_assoc]
    tauto

/-- **C5.** Include/exclude semantics. Eager path
(`loadNodeFromFile`): (a) with a non-empty include list, a node whose
fully-qualified name is missing from it is dropped with the registry
unchanged; (b) a node whose fully-qualified name is in the exclude list
is dropped with the registry unchanged — with no assumption about the
include list, so this holds in particular when the name is also
include-listed (exclude wins, include checked first); (c) a (plain) node
passing both checks is recorded under its bare name. Lazy path
(post-hoc filters of `LazyPackageDirectoryLoader.loadAll`): (d) a
`known.nodes` key survives the two filter passes iff it passes the
include test (vacuous for an empty include list) and is not
exclude-listed; (e) likewise for the `types.nodes` descriptors. -/
theorem c5_include_exclude_semantics :
    (∀ (env : Env) (pkg : String) (st : Registry) (f : String) (cls : NodeClass),
      env.nodeClasses f = some cls → env.includeNodes ≠ [] →
      pkg ++ "." ++ nodeClassName cls ∉ env.includeNodes →
      (loadNodeFromFile env pkg st f).map registryFields = .ok (registryFields st)) ∧
    (∀ (env : Env) (pkg : String) (st : Registry) (f : String) (cls : NodeClass),
      env.nodeClasses f = some cls →
      pkg ++ "." ++ nodeClassName cls ∈ env.excludeNodes →
      (loadNodeFromFile env pkg st f).map registryFields = .ok (registryFields st)) ∧
    (∀ (env : Env) (pkg : String) (st : Registry) (f : String) (n : NodeTypeModel),
      env.nodeClasses f = some (.plain n) →
      (env.includeNodes = [] ∨ pkg ++ "." ++ n.description.name ∈ env.includeNodes) →
      pkg ++ "." ++ n.description.name ∉ env.excludeNodes →
      ∃ s', loadNodeFromFile env pkg st f = .ok s' ∧
        alGet s'.known.nodes n.description.name = some ⟨classNameOf f, f⟩) ∧
    (∀ (env : Env) (st : Registry), NoDupKeys st.known.nodes → ∀ n,
      alGet (lazyApplyExcludeFilter env (lazyApplyIncludeFilter env st)).known.nodes n =
        if (env.includeNodes = [] ∨ n ∈ env.includeNodes) ∧ n ∉ env.excludeNodes
        then alGet st.known.nodes n else none) ∧
    (∀ (env : Env) (st : Registry) (d : NodeDesc),
      d ∈ (lazyApplyExcludeFilter env (lazyApplyIncludeFilter env st)).types.nodes ↔
        d ∈ st.types.nodes ∧ (env.includeNodes = [] ∨ d.name ∈ env.includeNodes) ∧
          d.name ∉ env.excludeNodes) := by
  refine ⟨?_, ?_, ?_, ?_, ?_⟩
  · intro env pkg st f cls hcls hinc hnot
    have hp := prepareNode_dropped_include env pkg f cls hcls hinc hnot
    simp [loadNodeFromFile, hp]
    rfl
  · intro env pkg st f cls hcls hexc
    have hp := prepareNode_dropped_exclude env pkg f cls hcls hexc
    simp [loadNodeFromFile, hp]
    rfl
  · intro env pkg st f n hcls hinc hexc
    have hp := prepareNode_kept_plain env pkg f n hcls hinc hexc
    refine ⟨recordNode (bumpResolver st) (.plain (keptPlainNode env pkg f n))
      n.description.name f
      (resolveBareVersion (keptPlainNode env pkg f n).description.version), ?_, ?_⟩
    · simp [loadNodeFromFile, hp]
    · show alGet (alSet (bumpResolver st).known.nodes n.description.name
        ⟨classNameOf f, f⟩) n.description.name = some ⟨classNameOf f, f⟩
      rw [alGet_alSet]
      simp
  · intro env st hnd n
    exact alGet_lazyFilters_knownNodes env st hnd n
  · intro env st d
    exact mem_lazyFilters_typesNodes env st d

/-- Eager-path environment for the C5 witness: one node missing from the
non-empty include list, one node in both lists, one node passing. -/
def envC5 : Env :=
  { includeNodes := ["pkg.nodeIn", "pkg.nodeBoth"]
    excludeNodes := ["pkg.nodeBoth"]
    nodeClasses := fun p =>
      if p = "dist/In.node.js" then
        some (.plain { description := { name := "nodeIn" } })
      else if p = "dist/Out.node.js" then
        some (.plain { description := { name := "nodeOut" } })
      else if p = "dist/Both.node.js" then
        some (.plain { description := { name := "nodeBoth" } })
      else none
    packageName := "pkg" }

/-- Lazy-path environment for the C5 witness. -/
def envC5L : Env :=
  { includeNodes := ["a", "x"]
    excludeNodes := ["x", "b"] }

/-- Lazy-path state for the C5 witness. -/
def stC5 : Registry :=
  { known := { nodes := [("a", ⟨"A", "a.js"⟩), ("b", ⟨"B", "b.js"⟩),
      ("x", ⟨"X", "x.js"⟩)] }
    types := { nodes := [{ name := "a" }, { name := "b" }, { name := "x" },
      { name := "c" }] } }

/-- Witness instantiating all five conjuncts of
`c5_include_exclude_semantics` on concrete loaders. -/
theorem c5_include_exclude_semantics_witness :
    ((loadNodeFromFile envC5 "pkg" initialRegistry "dist/Out.node.js").map registryFields =
      .ok (registryFields initialRegistry)) ∧
    ((loadNodeFromFile envC5 "pkg" initialRegistry "dist/Both.node.js").map registryFields =
      .ok (registryFields initialRegistry)) ∧
    (∃ s', loadNodeFromFile envC5 "pkg" initialRegistry "dist/In.node.js" = .ok s' ∧
      alGet s'.known.nodes "nodeIn" = some ⟨"In", "dist/In.node.js"⟩) ∧
    (alGet (lazyApplyExcludeFilter envC5L
        (lazyApplyIncludeFilter envC5L stC5)).known.nodes "a" = some ⟨"A", "a.js"⟩ ∧
      alGet (lazyApplyExcludeFilter envC5L
        (lazyApplyIncludeFilter envC5L stC5)).known.nodes "b" = none ∧
      alGet (lazyApplyExcludeFilter envC5L
        (lazyApplyIncludeFilter envC5L stC5)).known.nodes "x" = none) ∧
    (({ name := "a" } : NodeDesc) ∈ (lazyApplyExcludeFilter envC5L
        (lazyApplyIncludeFilter envC5L stC5)).types.nodes ↔
      ({ name := "a" } : NodeDesc) ∈ stC5.types.nodes ∧
        (envC5L.includeNodes = [] ∨ "a" ∈ envC5L.includeNodes) ∧
        "a" ∉ envC5L.excludeNodes) := by
  refine ⟨?_, ?_, ?_, ⟨?_, ?_, ?_⟩, ?_⟩
  · exact c5_include_exclude_semantics.1 envC5 "pkg" initialRegistry "dist/Out.node.js"
      _ rfl (by decide) (by decide)
  · exact c5_include_exclude_semantics.2.1 envC5 "pkg" initialRegistry "dist/Both.node.js"
      _ rfl (by decide)
  · exact c5_include_exclude_semantics.2.2.1 envC5 "pkg" initialRegistry "dist/In.node.js"
      _ rfl (by decide) (by decide)
  · rw [c5_include_exclude_semantics.2.2.2.1 envC5L stC5 (by unfold NoDupKeys; decide) "a"]
    rfl
  · rw [c5_include_exclude_semantics.2.2.2.1 envC5L stC5 (by unfold NoDupKeys; decide) "b"]
    rfl
  · rw [c5_include_exclude_semantics.2.2.2.1 envC5L stC5 (by unfold NoDupKeys; decide) "x"]
    rfl
  · exact c5_include_exclude_semantics.2.2.2.2 envC5L stC5 { name := "a" }

/-! ## C6: icon normalization -/

/-- **C6.** Icon normalization. (a) A single-string reference starting
with the `file:` marker, for a component file in directory `d` under
namespace `pkg`, is rewritten to
`iconUrl = "icons/" ++ pkg ++ "/" ++ d ++ "/" ++ <marker-stripped name>`
(for `file:x.svg` this is `icons/pkg/d/x.svg`) and the raw `icon`
reference is removed. (b) A dual-tone reference is rewritten (both sides,
raw reference removed) when *both* sides start with the marker. (c) When
at most one side starts with the marker, the descriptor is left
completely unmodified. -/
theorem c6_icon_normalization :
    (∀ (pkg filePath dir : String) (d : NodeDesc) (i : String),
      d.icon = some (.single i) → startsWithFileMarker i = true →
      dirname filePath = dir → dir ≠ "." →
      fixIconPathsDesc pkg filePath d =
        { d with icon := none, iconUrl := some (.single
            ("icons/" ++ pkg ++ "/" ++ dir ++ "/" ++ stripFileMarker i)) }) ∧
    (∀ (pkg filePath : String) (d : NodeDesc) (light dark : String),
      d.icon = some (.dual light dark) →
      startsWithFileMarker light = true → startsWithFileMarker dark = true →
      fixIconPathsDesc pkg filePath d =
        { d with icon := none, iconUrl := some (.dual
            (getIconPath pkg light filePath) (getIconPath pkg dark filePath)) }) ∧
    (∀ (pkg filePath : String) (d : NodeDesc) (light dark : String),
      d.icon = some (.dual light dark) →
      ¬(startsWithFileMarker light = true ∧ startsWithFileMarker dark = true) →
      fixIconPathsDesc pkg filePath d = d) := by
  refine ⟨?_, ?_, ?_⟩
  · intro pkg filePath dir d i hicon hmarker hdir hdot
    unfold fixIconPathsDesc fixIconPair
    rw [hicon]
    simp only [hmarker]
    unfold getIconPath pathJoin
    rw [hdir, if_neg hdot]
    simp [String.append_assoc]
  · intro pkg filePath d light dark hicon hl hr
    unfold fixIconPathsDesc fixIconPair
    rw [hicon]
    simp [hl, hr]
  · intro pkg filePath d light dark hicon hmix
    unfold fixIconPathsDesc fixIconPair
    rw [hicon]
    simp [hmix]
    rw [show some (IconRef.dual light dark) = d.icon from hicon.symm]

/-- Witness instantiating the three conjuncts of `c6_icon_normalization`
at concrete descriptors, checking the URL of the claim's example. -/
theorem c6_icon_normalization_witness :
    (fixIconPathsDesc "P" "d/y.node.js"
        { name := "n6", icon := some (.single "file:x.svg") } =
      { name := "n6", icon := none,
        iconUrl := some (.single "icons/P/d/x.svg") }) ∧
    (fixIconPathsDesc "P" "d/y.node.js"
        { name := "n6", icon := some (.dual "file:l.svg" "file:dk.svg") } =
      { name := "n6", icon := none,
        iconUrl := some (.dual "icons/P/d/l.svg" "icons/P/d/dk.svg") }) ∧
    (fixIconPathsDesc "P" "d/y.node.js"
        { name := "n6", icon := some (.dual "file:l.svg" "dk.svg") } =
      { name := "n6", icon := some (.dual "file:l.svg" "dk.svg") }) := by
  refine ⟨?_, ?_, ?_⟩
  · have h := c6_icon_normalization.1 "P" "d/y.node.js" "d"
      { name := "n6", icon := some (.single "file:x.svg") } "file:x.svg"
      rfl (by decide) (by decide) (by decide)
    rw [h]
    rfl
  · have h := c6_icon_normalization.2.1 "P" "d/y.node.js"
      { name := "n6", icon := some (.dual "file:l.svg" "file:dk.svg") }
      "file:l.svg" "file:dk.svg" rfl (by decide) (by decide)
    rw [h]
    rfl
  · exact c6_icon_normalization.2.2 "P" "d/y.node.js"
      { name := "n6", icon := some (.dual "file:l.svg" "dk.svg") }
      "file:l.svg" "dk.svg" rfl (by decide)

/-! ## C7: bare version resolution -/

/-- Environment for the C7 counterexample: a plain node declaring its
version as the (descending) list `[2, 1]`. -/
def envC7 : Env :=
  { nodeClasses := fun p =>
      if p = "dist/N7.node.js" then
        some (.plain { description := { name := "node7", version := .list [2, 1] } })
      else none }

/-- **C7, counterexample.** A bare node declaring versions `[2, 1]` is
recorded in `loadedNodes` with version `1` — the *last* element of the
list — although the highest value in the list is `2`; so the claim that
the highest value is recorded fails. -/
theorem c7_counterexample :
    (loadNodeFromFile envC7 "pkg" initialRegistry "dist/N7.node.js").map
      (fun s => s.loadedNodes) = .ok [⟨"node7", 1⟩] ∧
    ([2, 1] : List Int).maximum = some 2 :=
  ⟨rfl, by decide⟩

/-- The version a plain node's load records, preserved through codex
enrichment, icon normalization and load-options annotation. -/
theorem keptPlainNode_version (env : Env) (pkg f : String) (n : NodeTypeModel) :
    (keptPlainNode env pkg f n).description.version = n.description.version := by
  unfold keptPlainNode
  rw [addLoadOptionsMethods_version]
  show (addCodex pkg env.codexFiles f n.description).version = n.description.version
  exact addCodex_version pkg env.codexFiles f n.description

/-- **C7 (amended).** For a non-versioned node accepted by the filter,
the version recorded in `loadedNodes` is `version.slice(-1)[0]`: the
*last* element of a declared version list (which coincides with the
highest value only when the list is ascending); a single declared version
number is recorded verbatim. -/
theorem c7_bare_version_amended :
    (∀ (env : Env) (pkg : String) (st : Registry) (f : String)
        (n : NodeTypeModel) (vs : List Int),
      env.nodeClasses f = some (.plain n) →
      (env.includeNodes = [] ∨ pkg ++ "." ++ n.description.name ∈ env.includeNodes) →
      pkg ++ "." ++ n.description.name ∉ env.excludeNodes →
      n.description.version = .list vs →
      (loadNodeFromFile env pkg st f).map (fun s => s.loadedNodes) =
        .ok (st.loadedNodes ++ [⟨n.description.name, vs.getLastD 1⟩])) ∧
    (∀ (env : Env) (pkg : String) (st : Registry) (f : String)
        (n : NodeTypeModel) (k : Int),
      env.nodeClasses f = some (.plain n) →
      (env.includeNodes = [] ∨ pkg ++ "." ++ n.description.name ∈ env.includeNodes) →
      pkg ++ "." ++ n.description.name ∉ env.excludeNodes →
      n.description.version = .single k →
      (loadNodeFromFile env pkg st f).map (fun s => s.loadedNodes) =
        .ok (st.loadedNodes ++ [⟨n.description.name, k⟩])) := by
  constructor
  · intro env pkg st f n vs hcls hinc hexc hver
    have hp := prepareNode_kept_plain env pkg f n hcls hinc hexc
    have hv : resolveBareVersion (keptPlainNode env pkg f n).description.version =
        vs.getLastD 1 := by
      rw [keptPlainNode_version, hver]
      rfl
    simp [loadNodeFromFile, hp, hv]
    rfl
  · intro env pkg st f n k hcls hinc hexc hver
    have hp := prepareNode_kept_plain env pkg f n hcls hinc hexc
    have hv : resolveBareVersion (keptPlainNode env pkg f n).description.version = k := by
      rw [keptPlainNode_version, hver]
      rfl
    simp [loadNodeFromFile, hp, hv]
    rfl

/-- Environment for the C7 witness. -/
def envC7w : Env :=
  { nodeClasses := fun p =>
      if p = "dist/N7a.node.js" then
        some (.plain { description := { name := "node7a", version := .list [1, 2, 3] } })
      else if p = "dist/N7b.node.js" then
        some (.plain { description := { name := "node7b", version := .single 4 } })
      else none }

/-- Witness instantiating both conjuncts of `c7_bare_version_amended`. -/
theorem c7_bare_version_amended_witness :
    (loadNodeFromFile envC7w "pkg" initialRegistry "dist/N7a.node.js").map
      (fun s => s.loadedNodes) =
      .ok (initialRegistry.loadedNodes ++ [⟨"node7a", ([1, 2, 3] : List Int).getLastD 1⟩]) ∧
    (loadNodeFromFile envC7w "pkg" initialRegistry "dist/N7b.node.js").map
      (fun s => s.loadedNodes) =
      .ok (initialRegistry.loadedNodes ++ [⟨"node7b", 4⟩]) :=
  ⟨c7_bare_version_amended.1 envC7w "pkg" initialRegistry "dist/N7a.node.js" _ _
      rfl (Or.inl rfl) (by decide) rfl,
   c7_bare_version_amended.2 envC7w "pkg" initialRegistry "dist/N7b.node.js" _ _
      rfl (Or.inl rfl) (by decide) rfl⟩

/-! ## C8: retired `executeSingle` contract -/

/-- **C8.** If a versioned node passes the include/exclude filter and its
current version variant carries the forbidden `executeSingle` member,
`loadNodeFromFile` throws the fatal `ApplicationError` (modelled as
`LoadError.executeSingleRemoved`), and an eager discovery run reaching
that file aborts with the same error. Because the error is raised before
any assignment to `known`, `nodeTypes`, `loadedNodes`, `types` or
`nodesByCredential`, the aborted call produces no registry mutation for
that file (the `Except.error` result carries no state). -/
theorem c8_execute_single_fatal :
    ∀ (env : Env) (pkg : String) (st : Registry) (f : String)
      (v : VersionedNodeTypeModel) (cur : NodeTypeModel) (rest : List String),
    env.nodeClasses f = some (.versioned v) →
    (env.includeNodes = [] ∨ (pkg ++ "." ++ v.description.name) ∈ env.includeNodes) →
    (pkg ++ "." ++ v.description.name) ∉ env.excludeNodes →
    alGet v.nodeVersions v.currentVersion = some cur →
    cur.hasExecuteSingle = true →
    loadNodeFromFile env pkg st f =
      .error (.executeSingleRemoved (pkg ++ "." ++ v.description.name)) ∧
    loadNodesFromFiles env pkg st (f :: rest) =
      .error (.executeSingleRemoved (pkg ++ "." ++ v.description.name)) := by
  intro env pkg st f v cur rest hcls hinc hexc hcur hes
  have hp := prepareNode_executeSingle env pkg f v cur hcls hinc hexc hcur hes
  have h1 : loadNodeFromFile env pkg st f =
      .error (.executeSingleRemoved (pkg ++ "." ++ v.description.name)) := by
    simp [loadNodeFromFile, hp]
  refine ⟨h1, ?_⟩
  simp [loadNodesFromFiles, h1]

/-- Environment for the C8 witness: one versioned node whose current
variant still has `executeSingle`. -/
def envC8 : Env :=
  { nodeClasses := fun p =>
      if p = "dist/N8.node.js" then
        some (.versioned
          { description := { name := "node8" }
            currentVersion := 2
            nodeVersions :=
              [(1, { description := { name := "node8", version := .single 1 } }),
               (2, { description := { name := "node8", version := .single 2 },
                     hasExecuteSingle := true })] })
      else none
    customNodeFiles := ["dist/N8.node.js"] }

/-- Witness instantiating `c8_execute_single_fatal` on a concrete
versioned node. -/
theorem c8_execute_single_fatal_witness :
    loadNodeFromFile envC8 "pkg" initialRegistry "dist/N8.node.js" =
      .error (.executeSingleRemoved "pkg.node8") ∧
    loadNodesFromFiles envC8 "pkg" initialRegistry
        ["dist/N8.node.js", "dist/Other.node.js"] =
      .error (.executeSingleRemoved "pkg.node8") :=
  c8_execute_single_fatal envC8 "pkg" initialRegistry "dist/N8.node.js" _ _
    ["dist/Other.node.js"] rfl (Or.inl rfl) (by decide) rfl rfl

/-! ## C9: lazy success instantiates nothing; failure keeps the flag false -/

/-- **C9.** (a) When all four manifest artifact reads succeed,
`LazyPackageDirectoryLoader.loadAll` succeeds without invoking the
component resolver at all (`resolverCalls` is unchanged, i.e. zero
component classes are instantiated) and sets `isLazyLoaded` to `true`.
(b) When any of the four reads fails, the flag is left exactly as it was
(`false` for a freshly constructed loader), whatever the eager fallback
then does. -/
theorem c9_lazy_loading_flag :
    (∀ (env : Env) (st : Registry) (kn : List (String × KnownNodeEntry))
        (kc : List (String × KnownCredentialEntry)) (tn : List NodeDesc)
        (tc : List CredentialTypeModel),
      env.knownNodesArtifact = some kn →
      env.knownCredentialsArtifact = some kc →
      env.typesNodesArtifact = some tn →
      env.typesCredentialsArtifact = some tc →
      (lazyLoadAll env st).map (fun s => (s.isLazyLoaded, s.resolverCalls)) =
        .ok (true, st.resolverCalls)) ∧
    (∀ (env : Env) (st : Registry) (s' : Registry),
      (env.knownNodesArtifact = none ∨ env.knownCredentialsArtifact = none ∨
        env.typesNodesArtifact = none ∨ env.typesCredentialsArtifact = none) →
      lazyLoadAll env st = .ok s' → s'.isLazyLoaded = st.isLazyLoaded) := by
  constructor
  · intro env st kn kc tn tc h1 h2 h3 h4
    unfold lazyLoadAll
    rw [h1, h2, h3, h4]
    have hres : ∀ r : Registry,
        (lazyApplyExcludeFilter env (lazyApplyIncludeFilter env r)).resolverCalls =
          r.resolverCalls := by
      intro r
      rw [(lazyApplyExcludeFilter_fields env (lazyApplyIncludeFilter env r)).2,
        (lazyApplyIncludeFilter_fields env r).2]
    simp [Except.map, hres]
  · intro env st s' hfail hload
    cases h1 : env.knownNodesArtifact with
    | none =>
        unfold lazyLoadAll at hload
        rw [h1] at hload
        exact packageLoadAll_flag env hload
    | some kn =>
        cases h2 : env.knownCredentialsArtifact with
        | none =>
            unfold lazyLoadAll at hload
            rw [h1, h2] at hload
            have hload' : packageLoadAll env
                { st with known := { st.known with nodes := kn } } = .ok s' := hload
            have hfl := packageLoadAll_flag env hload'
            exact hfl
        | some kc =>
            cases h3 : env.typesNodesArtifact with
            | none =>
                unfold lazyLoadAll at hload
                rw [h1, h2, h3] at hload
                have hload' : packageLoadAll env
                    { st with known := { nodes := kn, credentials := kc } } = .ok s' := hload
                have hfl := packageLoadAll_flag env hload'
                exact hfl
            | some tn =>
                cases h4 : env.typesCredentialsArtifact with
                | none =>
                    unfold lazyLoadAll at hload
                    rw [h1, h2, h3, h4] at hload
                    have hload' : packageLoadAll env
                        { st with
                          known := { nodes := kn, credentials := kc }
                          types := { st.types with nodes := tn } } = .ok s' := hload
                    have hfl := packageLoadAll_flag env hload'
                    exact hfl
                | some tc =>
                    rcases hfail with h | h | h | h
                    · rw [h1] at h; cases h
                    · rw [h2] at h; cases h
                    · rw [h3] at h; cases h
                    · rw [h4] at h; cases h

/-- Environment for the C9 witness, success branch: all four artifacts
readable. -/
def envC9 : Env :=
  { packageName := "n8n-nodes-nine"
    n8nBlock := some { nodes := some ["dist/N9.node.js"] }
    nodeClasses := fun p =>
      if p = "dist/N9.node.js" then
        some (.plain { description := { name := "node9" } })
      else none
    knownNodesArtifact := some [("node9", ⟨"N9", "dist/N9.node.js"⟩)]
    knownCredentialsArtifact := some []
    typesNodesArtifact := some [{ name := "node9" }]
    typesCredentialsArtifact := some [] }

/-- Environment for the C9 witness, failure branch: the type-descriptor
read for credentials fails. -/
def envC9f : Env :=
  { packageName := "n8n-nodes-nine"
    n8nBlock := some { nodes := some ["dist/N9.node.js"] }
    nodeClasses := fun p =>
      if p = "dist/N9.node.js" then
        some (.plain { description := { name := "node9" } })
      else none
    knownNodesArtifact := some [("node9", ⟨"N9", "dist/N9.node.js"⟩)]
    knownCredentialsArtifact := some []
    typesNodesArtifact := some [{ name := "node9" }]
    typesCredentialsArtifact := none }

/-- Fallback result of the failing C9 environment. -/
def s9f : Registry :=
  match lazyLoadAll envC9f initialRegistry with
  | .ok s => s
  | .error _ => initialRegistry

/-- Witness instantiating both conjuncts of `c9_lazy_loading_flag`. -/
theorem c9_lazy_loading_flag_witness :
    (lazyLoadAll envC9 initialRegistry).map (fun s => (s.isLazyLoaded, s.resolverCalls)) =
      .ok (true, initialRegistry.resolverCalls) ∧
    s9f.isLazyLoaded = initialRegistry.isLazyLoaded :=
  ⟨c9_lazy_loading_flag.1 envC9 initialRegistry _ _ _ _ rfl rfl rfl rfl,
   c9_lazy_loading_flag.2 envC9f initialRegistry s9f (Or.inr (Or.inr (Or.inr rfl))) rfl⟩

/-! ## C10: nodes before credentials; completeness of `supportedNodes` -/

/-- **C10.** Both eager discovery runs load every node file before any
credential file (structurally: the credential phase folds over the state
produced by the completed node phase). Consequently, for a run from the
freshly constructed state, every recorded credential's known-index entry
has `supportedNodes` equal to the complete list of accepted nodes of that
run that declare the credential — and `supportedNodes` is absent
(`undefined`) when no accepted node declares it. -/
theorem c10_supported_nodes_complete :
    (∀ (env : Env) (s' : Registry),
      customLoadAll env initialRegistry = .ok s' →
      ∀ c e, alGet s'.known.credentials c = some e →
        e.supportedNodes =
          (if declaringNodes env "CUSTOM" env.customNodeFiles c = [] then none
            else some (declaringNodes env "CUSTOM" env.customNodeFiles c))) ∧
    (∀ (env : Env) (block : N8nBlock) (s' : Registry),
      env.n8nBlock = some block →
      packageLoadAll env initialRegistry = .ok s' →
      ∀ c e, alGet s'.known.credentials c = some e →
        e.supportedNodes =
          (if declaringNodes env env.packageName (block.nodes.getD []) c = [] then none
            else some (declaringNodes env env.packageName (block.nodes.getD []) c))) := by
  constructor
  · intro env s' h
    unfold customLoadAll at h
    cases h1 : loadNodesFromFiles env "CUSTOM" initialRegistry env.customNodeFiles with
    | error e => rw [h1] at h; cases h
    | ok s1 =>
        rw [h1] at h
        have h2 : loadCredentialsFromFiles env "CUSTOM" s1 env.customCredentialFiles =
            .ok s' := h
        exact phases_supportedNodes env "CUSTOM" env.customNodeFiles
          env.customCredentialFiles h1 h2
  · intro env block s' hb h
    unfold packageLoadAll at h
    rw [hb] at h
    have h' : (match loadNodesFromFiles env env.packageName initialRegistry
        (block.nodes.getD []) with
      | Except.error e => Except.error e
      | Except.ok st' =>
          loadCredentialsFromFiles env env.packageName st' (block.credentials.getD [])) =
        Except.ok s' := h
    cases h1 : loadNodesFromFiles env env.packageName initialRegistry
        (block.nodes.getD []) with
    | error e => rw [h1] at h'; cases h'
    | ok s1 =>
        rw [h1] at h'
        have h2 : loadCredentialsFromFiles env env.packageName s1
            (block.credentials.getD []) = .ok s' := h'
        exact phases_supportedNodes env env.packageName (block.nodes.getD [])
          (block.credentials.getD []) h1 h2

/-- Environment for the C10 witness, custom loader: one node declaring
`credential1`, one declaring nothing; credential files for `credential1`
and for the undeclared `credential2`. -/
def envC10 : Env :=
  { nodeClasses := fun p =>
      if p = "dist/N10a.node.js" then
        some (.plain { description := { name := "node1", credentials := ["credential1"] } })
      else if p = "dist/N10b.node.js" then
        some (.plain { description := { name := "node2" } })
      else none
    credentialClasses := fun p =>
      if p = "dist/C10a.js" then some { name := "credential1" }
      else if p = "dist/C10b.js" then some { name := "credential2" }
      else none
    customNodeFiles := ["dist/N10a.node.js", "dist/N10b.node.js"]
    customCredentialFiles := ["dist/C10a.js", "dist/C10b.js"] }

/-- The `n8n` block of the C10 package-loader witness. -/
def blockC10 : N8nBlock :=
  { nodes := some ["dist/N10a.node.js"], credentials := some ["dist/C10a.js"] }

/-- Environment for the C10 witness, package loader. -/
def envC10p : Env :=
  { nodeClasses := fun p =>
      if p = "dist/N10a.node.js" then
        some (.plain { description := { name := "node1", credentials := ["credential1"] } })
      else none
    credentialClasses := fun p =>
      if p = "dist/C10a.js" then some { name := "credential1" } else none
    packageName := "n8n-nodes-ten"
    n8nBlock := some blockC10 }

/-- Registry produced by the C10 custom run. -/
def sC10 : Registry :=
  match customLoadAll envC10 initialRegistry with
  | .ok s => s
  | .error _ => initialRegistry

/-- The recorded `credential1` entry of the C10 custom run. -/
def eC10a : KnownCredentialEntry :=
  match alGet sC10.known.credentials "credential1" with
  | some e => e
  | none => ⟨"", "", none, none⟩

/-- The recorded `credential2` entry of the C10 custom run. -/
def eC10b : KnownCredentialEntry :=
  match alGet sC10.known.credentials "credential2" with
  | some e => e
  | none => ⟨"", "", none, none⟩

/-- Registry produced by the C10 package run. -/
def sC10p : Registry :=
  match packageLoadAll envC10p initialRegistry with
  | .ok s => s
  | .error _ => initialRegistry

/-- The recorded `credential1` entry of the C10 package run. -/
def eC10p : KnownCredentialEntry :=
  match alGet sC10p.known.credentials "credential1" with
  | some e => e
  | none => ⟨"", "", none, none⟩

/-- Witness instantiating both conjuncts of
`c10_supported_nodes_complete`: the declared credential gets the full
declaring-node list, the undeclared one records no `supportedNodes`. -/
theorem c10_supported_nodes_complete_witness :
    eC10a.supportedNodes =
      (if declaringNodes envC10 "CUSTOM" envC10.customNodeFiles "credential1" = [] then none
        else some (declaringNodes envC10 "CUSTOM" envC10.customNodeFiles "credential1")) ∧
    eC10a.supportedNodes = some ["node1"] ∧
    eC10b.supportedNodes =
      (if declaringNodes envC10 "CUSTOM" envC10.customNodeFiles "credential2" = [] then none
        else some (declaringNodes envC10 "CUSTOM" envC10.customNodeFiles "credential2")) ∧
    eC10b.supportedNodes = none ∧
    eC10p.supportedNodes =
      (if declaringNodes envC10p "n8n-nodes-ten" (blockC10.nodes.getD []) "credential1" = []
        then none
        else some (declaringNodes envC10p "n8n-nodes-ten" (blockC10.nodes.getD []) "credential1")) :=
  ⟨c10_supported_nodes_complete.1 envC10 sC10 rfl "credential1" eC10a rfl,
   rfl,
   c10_supported_nodes_complete.1 envC10 sC10 rfl "credential2" eC10b rfl,
   rfl,
   c10_supported_nodes_complete.2 envC10p blockC10 sC10p rfl rfl "credential1" eC10p rfl⟩

end DirectoryLoaderProof
